import Mathlib

/-!
# Verification of the A* maze solver (`main.py`)

Shallow embedding of the A* path-finding program: a maze is a
`List (List String)` of cell symbols (`"S"` start, `"E"` goal, `"0"` free,
`"1"` obstacle, other symbols treated as free), positions are pairs of
integers `(row, column)`, and the search is the `algoritmo_a_estrela`
function built from a binary heap (`heapq`-style), an open set and a
closed set.  All functions mirror the Python source; loops become fuelled
structural recursions so that every definition evaluates by kernel
reduction.
-/

/-- A position `(linha, coluna)` in the maze, as the Python pair of ints. -/
abbrev Pos : Type := Int × Int

/-- Manhattan distance `|x_atual - x_final| + |y_atual - y_final|`
(function `heuristica_manhattan` of the source). -/
def heuristica_manhattan (pos_atual pos_final : Pos) : Int :=
  |pos_atual.1 - pos_final.1| + |pos_atual.2 - pos_final.2|

/-- Scan of the maze for the markers `S` and `E`
(function `encontrar_posicoes`): the double loop overwrites on every hit,
so the *last* occurrence (row-major) of each marker wins, and `none` is
returned for a marker that never occurs. -/
def encontrar_posicoes (labirinto : List (List String)) :
    Option Pos × Option Pos :=
  labirinto.enum.foldl (fun acc li =>
    li.2.enum.foldl (fun acc2 jc =>
      if jc.2 = "S" then (some ((li.1 : Int), (jc.1 : Int)), acc2.2)
      else if jc.2 = "E" then (acc2.1, some ((li.1 : Int), (jc.1 : Int)))
      else acc2) acc) (none, none)

/-- The four orthogonal movement offsets, in the order of the source:
cima, baixo, esquerda, direita. -/
def movimentos : List (Int × Int) := [(-1, 0), (1, 0), (0, -1), (0, 1)]

/-- Cell symbol stored at a position (in-bounds accesses only ever occur
after the bound check of `obter_vizinhos`). -/
def celula (labirinto : List (List String)) (p : Pos) : String :=
  (labirinto.getD p.1.toNat []).getD p.2.toNat ""

/-- Valid neighbours of a position (function `obter_vizinhos`): the four
orthogonal offsets, kept when inside the bounds (`len(labirinto)` rows,
`len(labirinto[0])` columns) and the target cell is not the obstacle
symbol `"1"`.  The source's conditional `append` loop over `movimentos`
is rendered as `map` + `filter`, which preserves the order. -/
def obter_vizinhos (posicao : Pos) (labirinto : List (List String)) :
    List Pos :=
  (movimentos.map (fun m => (posicao.1 + m.1, posicao.2 + m.2))).filter
    (fun q => decide (0 ≤ q.1 ∧ q.1 < (labirinto.length : Int) ∧
      0 ≤ q.2 ∧ q.2 < ((labirinto.headD []).length : Int) ∧
      celula labirinto q ≠ "1"))

/-- A node of the A* search (class `Node`): position, `g_cost`, `h_cost`,
`f_cost` and an optional parent.  The Python field `parent : Optional[Node]`
is rendered by the two constructors: `raiz` is a node with `parent = None`,
`filho pos g h f pai` a node with `parent = pai`. -/
inductive Node where
  | raiz (position : Pos) (g_cost h_cost f_cost : Int)
  | filho (position : Pos) (g_cost h_cost f_cost : Int) (pai : Node)
deriving DecidableEq

instance : Inhabited Node := ⟨.raiz (0, 0) 0 0 0⟩

/-- The `position` field of a node. -/
def Node.position : Node → Pos
  | .raiz p _ _ _ => p
  | .filho p _ _ _ _ => p

/-- The `g_cost` field of a node. -/
def Node.g_cost : Node → Int
  | .raiz _ g _ _ => g
  | .filho _ g _ _ _ => g

/-- The `h_cost` field of a node. -/
def Node.h_cost : Node → Int
  | .raiz _ _ h _ => h
  | .filho _ _ h _ _ => h

/-- The `f_cost` field of a node. -/
def Node.f_cost : Node → Int
  | .raiz _ _ _ f => f
  | .filho _ _ _ f _ => f

/-- The `parent` field of a node. -/
def Node.parent : Node → Option Node
  | .raiz _ _ _ _ => none
  | .filho _ _ _ _ q => some q

/-- The constructor `Node.__init__`: it receives `position`, `g_cost`,
`h_cost` and `parent` and always sets `f_cost = g_cost + h_cost`. -/
def Node.novo (position : Pos) (g_cost h_cost : Int) (parent : Option Node) :
    Node :=
  match parent with
  | none => .raiz position g_cost h_cost (g_cost + h_cost)
  | some q => .filho position g_cost h_cost (g_cost + h_cost) q

/-- The chain of positions from a node up through its parents
(the list built by the `while` loop of `reconstruir_caminho` before the
final `reverse`). -/
def cadeia : Node → List Pos
  | .raiz p _ _ _ => [p]
  | .filho p _ _ _ q => p :: cadeia q

/-- Path reconstruction (function `reconstruir_caminho`): walk the parent
chain collecting positions, then reverse. -/
def reconstruir_caminho (no_final : Node) : List Pos :=
  (cadeia no_final).reverse

/-- Movement cost of the engine: line 152 of the source sets
`g_cost_vizinho = no_atual.g_cost + 1` with the comment
"Custo de movimento sempre 1" — the cost of every step is the constant 1,
independent of the two positions. -/
def custo_movimento (_origem _destino : Pos) : Int := 1

/-- Total cost of a path: sum of the engine's step costs over consecutive
pairs of positions. -/
def custo_total (caminho : List Pos) : Int :=
  (caminho.zip caminho.tail).foldl
    (fun acc par => acc + custo_movimento par.1 par.2) 0

/-- Modelled from the spec: the terrain weight of a cell — `1.0` for
free/start/goal, the numeric value for a digit-weighted cell `2`–`9`,
and `1.0` as fallback for any other non-obstacle symbol.  This function
does not exist in `src/main.py`; it renders §4.1 of the spec for
comparison with the engine's actual costs. -/
def peso_terreno_spec (labirinto : List (List String)) (p : Pos) : Int :=
  match celula labirinto p with
  | "2" => 2 | "3" => 3 | "4" => 4 | "5" => 5
  | "6" => 6 | "7" => 7 | "8" => 8 | "9" => 9
  | _ => 1

/-- Modelled from the spec: total cost of a path under §4.4 of the spec —
base cost (1.0 for an orthogonal step; the diagonal √2 case never arises
for the 4-directional paths produced by this program, so the value stays
integral) multiplied by the terrain weight of the *destination* cell of
each step. -/
def custo_caminho_spec (labirinto : List (List String))
    (caminho : List Pos) : Int :=
  (caminho.zip caminho.tail).foldl
    (fun acc par => acc + 1 * peso_terreno_spec labirinto par.2) 0

/-!
## The priority queue (CPython `heapq`)

The source uses `heapq.heappush`, `heapq.heappop` and `heapq.heapify` on a
list of `Node`s compared with `Node.__lt__`, which compares **only**
`f_cost`.  The CPython algorithms `_siftdown` (bubble the item at `pos`
up towards `startpos`) and `_siftup` (sink the hole at `pos` to a leaf,
then bubble back up) are mirrored with an explicit fuel so that they are
structural recursions; the fuel chosen at each call site provably never
runs out (the zero-fuel fallback coincides with the loop-exit branch).
-/

/-- `heapq._siftdown`, inner loop: `novo` is the saved `newitem`, the
fuel starts at `pos` and dominates the strictly decreasing `pos`. -/
def siftdownGo (novo : Node) : Nat → List Node → Nat → Nat → List Node
  | 0, heap, _, pos => heap.set pos novo
  | fuel + 1, heap, startpos, pos =>
    if startpos < pos then
      let parentpos := (pos - 1) / 2
      let parent := heap.getD parentpos default
      if novo.f_cost < parent.f_cost then
        siftdownGo novo fuel (heap.set pos parent) startpos parentpos
      else heap.set pos novo
    else heap.set pos novo

/-- `heapq._siftdown(heap, startpos, pos)`: saves `newitem = heap[pos]`
and bubbles it up. -/
def siftdownPy (heap : List Node) (startpos pos : Nat) : List Node :=
  siftdownGo (heap.getD pos default) pos heap startpos pos

/-- `heapq._siftup`, inner loop: `endpos` is `len(heap)` read at entry,
`novo` the saved `newitem`; the fuel dominates `endpos - pos`, which
strictly decreases. -/
def siftupGo (endpos : Nat) (novo : Node) :
    Nat → List Node → Nat → Nat → List Node
  | 0, heap, startpos, pos => siftdownPy (heap.set pos novo) startpos pos
  | fuel + 1, heap, startpos, pos =>
    if 2 * pos + 1 < endpos then
      let childpos := 2 * pos + 1
      let rightpos := childpos + 1
      let childpos2 :=
        if rightpos < endpos ∧
            ¬ ((heap.getD childpos default).f_cost <
               (heap.getD rightpos default).f_cost) then rightpos
        else childpos
      siftupGo endpos novo fuel (heap.set pos (heap.getD childpos2 default))
        startpos childpos2
    else siftdownPy (heap.set pos novo) startpos pos

/-- `heapq._siftup(heap, pos)`. -/
def siftupPy (heap : List Node) (pos : Nat) : List Node :=
  siftupGo heap.length (heap.getD pos default) heap.length heap pos pos

/-- `heapq.heappush`: append the item and sift it up towards the root. -/
def heappush (heap : List Node) (item : Node) : List Node :=
  siftdownPy (heap ++ [item]) 0 heap.length

/-- `heapq.heappop`: pop the last element; if the heap is still nonempty,
the root is the returned item, the last element is moved to the root and
sunk.  (On an empty list CPython raises; the search loop only calls this
under a nonemptiness guard.) -/
def heappop (heap : List Node) : Node × List Node :=
  let lastelt := heap.getLastD default
  let resto := heap.dropLast
  if resto.isEmpty then (lastelt, resto)
  else (resto.getD 0 default, siftupPy (resto.set 0 lastelt) 0)

/-- `heapq.heapify`: sift down every non-leaf index, last first. -/
def heapify (heap : List Node) : List Node :=
  (List.range (heap.length / 2)).reverse.foldl (fun h i => siftupPy h i) heap

/-!
## The search engine (`algoritmo_a_estrela`)
-/

/-- The mutable state of the search: the priority queue `fila_aberta`,
the set `conjunto_aberto` of positions currently in the queue, the set
`conjunto_fechado` of expanded positions, and the maze itself (which the
Python function holds by reference throughout the search). -/
structure AState where
  fila_aberta : List Node
  conjunto_aberto : Finset Pos
  conjunto_fechado : Finset Pos
  labirinto : List (List String)
deriving DecidableEq

/-- Treatment of one neighbour `pos_vizinho` of the expanded node
`no_atual` (the body of the `for pos_vizinho in obter_vizinhos(...)` loop,
lines 146–178 of the source): skip closed neighbours; otherwise build the
candidate node with `g = no_atual.g_cost + 1`; if the neighbour is in the
open set, scan `fila_aberta` for the first entry at that position and, when
the new `g_cost` is strictly smaller, overwrite that entry in place and
re-`heapify`; only when the neighbour is not in the open set push a new
entry and record the position as open. -/
def relaxar (no_atual : Node) (pos_final : Pos) (st : AState)
    (pos_vizinho : Pos) : AState :=
  if pos_vizinho ∈ st.conjunto_fechado then st
  else
    let g := no_atual.g_cost + 1
    let h := heuristica_manhattan pos_vizinho pos_final
    let no_vizinho := Node.novo pos_vizinho g h (some no_atual)
    if pos_vizinho ∈ st.conjunto_aberto then
      match st.fila_aberta.findIdx? (fun nf => decide (nf.position = pos_vizinho)) with
      | some i =>
        if no_vizinho.g_cost < (st.fila_aberta.getD i default).g_cost then
          { st with fila_aberta := heapify (st.fila_aberta.set i no_vizinho) }
        else st
      | none => st
    else
      { st with
        fila_aberta := heappush st.fila_aberta no_vizinho,
        conjunto_aberto := insert pos_vizinho st.conjunto_aberto }

/-- Expansion of a popped node: relax every neighbour in order. -/
def expandir (no_atual : Node) (pos_final : Pos) (st : AState) : AState :=
  (obter_vizinhos no_atual.position st.labirinto).foldl
    (relaxar no_atual pos_final) st

/-- Outcome of the main loop: goal node found, queue exhausted without
reaching the goal, or fuel exhausted (shown below never to happen for the
fuel `algoritmo_a_estrela` supplies). -/
inductive ResA where
  | achado (n : Node)
  | semCaminho
  | semCombustivel
deriving DecidableEq

/-- The `while fila_aberta:` main loop of `algoritmo_a_estrela`: pop the
root node, remove its position from the open set, return it if it is the
goal, otherwise close its position and expand it.  The final state is
returned alongside the outcome. -/
def laco (pos_final : Pos) : Nat → AState → ResA × AState
  | 0, st =>
    ((if st.fila_aberta.isEmpty then ResA.semCaminho else ResA.semCombustivel),
      st)
  | fuel + 1, st =>
    if st.fila_aberta.isEmpty then (ResA.semCaminho, st)
    else
      let pr := heappop st.fila_aberta
      let st2 := { st with
        fila_aberta := pr.2,
        conjunto_aberto := st.conjunto_aberto.erase pr.1.position }
      if pr.1.position = pos_final then (ResA.achado pr.1, st2)
      else
        let st3 := { st2 with
          conjunto_fechado := insert pr.1.position st2.conjunto_fechado }
        laco pos_final fuel (expandir pr.1 pos_final st3)

/-- Initial search state: the start node (with `g = 0` and the Manhattan
heuristic) pushed on the empty queue, start position in the open set. -/
def estado_inicial (labirinto : List (List String))
    (pos_inicial pos_final : Pos) : AState :=
  { fila_aberta :=
      heappush [] (Node.novo pos_inicial 0
        (heuristica_manhattan pos_inicial pos_final) none),
    conjunto_aberto := {pos_inicial},
    conjunto_fechado := ∅,
    labirinto := labirinto }

/-- Fuel supplied to the main loop: one more than rows × columns; the
termination theorem below shows the loop never consumes it all. -/
def combustivel (labirinto : List (List String)) : Nat :=
  labirinto.length * (labirinto.headD []).length + 1

/-- Outcome of the search including validation: `semCaminho` when a marker
is missing (the source prints an error and returns `None`). -/
def resultado_busca (labirinto : List (List String)) : ResA :=
  match encontrar_posicoes labirinto with
  | (none, _) => ResA.semCaminho
  | (some _, none) => ResA.semCaminho
  | (some pos_inicial, some pos_final) =>
    (laco pos_final (combustivel labirinto)
      (estado_inicial labirinto pos_inicial pos_final)).1

/-- The function `algoritmo_a_estrela`: `None` when a marker is missing,
the reconstructed path when the goal node is found, `None` when the queue
is exhausted. -/
def algoritmo_a_estrela (labirinto : List (List String)) :
    Option (List Pos) :=
  match resultado_busca labirinto with
  | ResA.achado n => some (reconstruir_caminho n)
  | _ => none

/-- The accumulated `g_cost` the engine computed for the goal (the cost
of the returned path as the engine accounts it), when a path is found. -/
def custo_g_final (labirinto : List (List String)) : Option Int :=
  match resultado_busca labirinto with
  | ResA.achado n => some n.g_cost
  | _ => none

/-- The example maze of `criar_labirinto_exemplo`. -/
def criar_labirinto_exemplo : List (List String) :=
  [["S", "0", "1", "0", "0"],
   ["0", "0", "1", "0", "1"],
   ["0", "0", "0", "0", "0"],
   ["1", "0", "0", "E", "1"]]

/-!
## Specification vocabulary

Predicates used to state the claims: legal paths, the combinatorial
shortest-path distance, well-formedness of parent chains, the binary-heap
ordering, and the invariants of the search loop.
-/

/-- A legal path of the maze from `a` to `b`: nonempty, starts at `a`,
ends at `b`, and every consecutive pair is a step to a valid neighbour
(in bounds and not an obstacle, per `obter_vizinhos`). -/
def CaminhoLegal (labirinto : List (List String)) (a b : Pos)
    (p : List Pos) : Prop :=
  p.head? = some a ∧ p.getLast? = some b ∧
    List.Chain' (fun u v => v ∈ obter_vizinhos u labirinto) p

/-- `b` can be reached from `a` by a legal path of `n` steps. -/
def Alcanca (labirinto : List (List String)) (a b : Pos) (n : Nat) : Prop :=
  ∃ p, CaminhoLegal labirinto a b p ∧ p.length = n + 1

/-- Least number of steps of a legal path from `a` to `b` (junk value `0`
when `b` is unreachable, via `Nat.sInf` of the empty set).  Pure
specification vocabulary — the program computes no such quantity. -/
noncomputable def distMin (labirinto : List (List String)) (a b : Pos) : Nat :=
  sInf {n | Alcanca labirinto a b n}

/-- Well-formed search node: its parent chain is a legal path starting at
`pos_inicial`, each link adds `g_cost` 1, and `h_cost`/`f_cost` are the
Manhattan heuristic and `g + h` — exactly what the engine builds. -/
def WFNo (labirinto : List (List String)) (pos_inicial pos_final : Pos) :
    Node → Prop
  | .raiz p g h f =>
      p = pos_inicial ∧ g = 0 ∧ h = heuristica_manhattan p pos_final ∧
        f = g + h
  | .filho p g h f q =>
      WFNo labirinto pos_inicial pos_final q ∧
        p ∈ obter_vizinhos q.position labirinto ∧ g = q.g_cost + 1 ∧
        h = heuristica_manhattan p pos_final ∧ f = g + h

/-- The heap condition at one index: the entry at `k` has `f_cost` at most
that of each of its children `2k+1`, `2k+2` (when they exist). -/
def HeapNo (l : List Node) (k : Nat) : Prop :=
  ∀ j, (j = 2 * k + 1 ∨ j = 2 * k + 2) → j < l.length →
    (l.getD k default).f_cost ≤ (l.getD j default).f_cost

/-- The whole list is a binary min-heap on `f_cost`. -/
def FilaOrdenada (l : List Node) : Prop := ∀ k, HeapNo l k

/-- `Desc i j`: index `j` lies in the binary subtree rooted at `i`. -/
inductive Desc : Nat → Nat → Prop where
  | refl (i : Nat) : Desc i i
  | esq (i : Nat) {k : Nat} : Desc (2 * i + 1) k → Desc i k
  | dir (i : Nat) {k : Nat} : Desc (2 * i + 2) k → Desc i k

/-- The in-bounds positions of the maze, as the engine bounds them:
row below `len(labirinto)`, column below `len(labirinto[0])`. -/
def celulasGrade (labirinto : List (List String)) : Finset Pos :=
  (Finset.range labirinto.length ×ˢ
    Finset.range (labirinto.headD []).length).image
    (fun ij => ((ij.1 : Int), (ij.2 : Int)))

/-- A rectangular, non-empty maze: all rows have the length of row 0. -/
def Retangular (labirinto : List (List String)) : Prop :=
  labirinto ≠ [] ∧
    ∀ linha ∈ labirinto, linha.length = (labirinto.headD []).length

/-- Structural invariant of the search state, relative to a finite bound
`B` on positions: the open set is exactly the (duplicate-free) set of
positions in the queue, it is disjoint from the closed set, both are
inside `B`, and every neighbour list stays inside `B`. -/
structure InvEstrutural (B : Finset Pos) (s : AState) : Prop where
  nodup : (s.fila_aberta.map Node.position).Nodup
  abeq : ∀ p : Pos,
    p ∈ s.conjunto_aberto ↔ p ∈ s.fila_aberta.map Node.position
  disj : ∀ p ∈ s.conjunto_aberto, p ∉ s.conjunto_fechado
  abB : ∀ p ∈ s.conjunto_aberto, p ∈ B
  feB : ∀ p ∈ s.conjunto_fechado, p ∈ B
  vizB : ∀ p q : Pos, q ∈ obter_vizinhos p s.labirinto → q ∈ B

/-- Termination measure of the main loop: queue length plus the number of
never-seen positions.  Each iteration decreases it by exactly one. -/
def medida (B : Finset Pos) (s : AState) : Nat :=
  s.fila_aberta.length +
    (B \ (s.conjunto_aberto ∪ s.conjunto_fechado)).card

/-- Full invariant of the A* loop: the structural invariant, plus — every
queued node is well formed; the queue is a min-heap on `f_cost`; the start
is closed or queued with `g ≤ 0`; for every closed position, each of its
neighbours is closed or queued with a `g_cost` within one step of the
closed position's optimal distance; and the goal is never closed. -/
structure InvBusca (labirinto : List (List String)) (pos_inicial pos_final : Pos)
    (B : Finset Pos) (s : AState) : Prop where
  estr : InvEstrutural B s
  lab_eq : s.labirinto = labirinto
  wf : ∀ n ∈ s.fila_aberta, WFNo labirinto pos_inicial pos_final n
  ord : FilaOrdenada s.fila_aberta
  inicio : pos_inicial ∈ s.conjunto_fechado ∨
    ∃ m ∈ s.fila_aberta, m.position = pos_inicial ∧ m.g_cost ≤ 0
  fechadoViz : ∀ p ∈ s.conjunto_fechado, ∀ r ∈ obter_vizinhos p labirinto,
    r ∈ s.conjunto_fechado ∨ ∃ m ∈ s.fila_aberta, m.position = r ∧
      m.g_cost ≤ (distMin labirinto pos_inicial p : Int) + 1
  metaAberta : pos_final ∉ s.conjunto_fechado

/-- Reachability invariant of the A* loop (no heap-order facts): the
structural invariant relative to a bound `B`, plus — the state's maze is
the input maze; every queued node is well formed; the start is closed or
open; each neighbour of a closed position is closed or open; and the goal
is never closed. -/
structure InvAlcance (labirinto : List (List String))
    (pos_inicial pos_final : Pos) (B : Finset Pos) (s : AState) : Prop where
  estr : InvEstrutural B s
  lab_eq : s.labirinto = labirinto
  wf : ∀ n ∈ s.fila_aberta, WFNo labirinto pos_inicial pos_final n
  inicio : pos_inicial ∈ s.conjunto_fechado ∨ pos_inicial ∈ s.conjunto_aberto
  fechadoViz : ∀ p ∈ s.conjunto_fechado, ∀ r ∈ obter_vizinhos p labirinto,
    r ∈ s.conjunto_fechado ∨ r ∈ s.conjunto_aberto
  metaAberta : pos_final ∉ s.conjunto_fechado

/-!
## Concrete runs

Claim theorems that evaluate the engine on explicit mazes, plus the
counterexamples for the claims the code refutes.
-/

/-- C8: on the 4×5 example grid of `criar_labirinto_exemplo`, in the
(only) 4-directional mode, the engine returns a path of exactly 7
positions, start and goal inclusive, whose total cost is 6 (sum of the
engine's unit step costs, equal to the `g_cost` the engine accumulated at
the goal). -/
theorem c8_exemplo_sete_posicoes_custo_seis :
    ∃ caminho, algoritmo_a_estrela criar_labirinto_exemplo = some caminho ∧
      caminho.length = 7 ∧ custo_total caminho = 6 ∧
      custo_g_final criar_labirinto_exemplo = some 6 := by
  refine ⟨[(0, 0), (1, 0), (2, 0), (2, 1), (3, 1), (3, 2), (3, 3)],
    ?_, ?_, ?_, ?_⟩ <;> decide

/-- C1, counterexample: on the maze `S 2 E` the engine steps onto the
digit-weighted cell `"2"` for cost 1, not `2 × 1`: the accumulated cost at
the goal is 2, while the spec's base-times-destination-weight cost of the
very path the engine returns is 3. -/
theorem c1_contraexemplo_peso_ignorado :
    algoritmo_a_estrela [["S", "2", "E"]] = some [(0, 0), (0, 1), (0, 2)] ∧
    custo_g_final [["S", "2", "E"]] = some 2 ∧
    custo_caminho_spec [["S", "2", "E"]] [(0, 0), (0, 1), (0, 2)] = 3 ∧
    (2 : Int) ≠ 3 := by
  refine ⟨?_, ?_, ?_, ?_⟩ <;> decide

/-- C3, counterexample: a grid with two `S` markers is not rejected —
`encontrar_posicoes` silently keeps the last occurrence `(0,1)`, the
search proceeds and returns a path, no count of markers is reported. -/
theorem c3_contraexemplo_dois_inicios :
    encontrar_posicoes [["S", "S", "E"]] = (some (0, 1), some (0, 2)) ∧
    algoritmo_a_estrela [["S", "S", "E"]] = some [(0, 1), (0, 2)] := by
  constructor <;> decide

/-- C4, counterexample: the exhaustion outcome (maze `S 1 E`, goal walled
off, validation succeeded) and the validation-failure outcome (maze `0`,
no markers) are both the bare value `none` — equal, hence not
distinguishable by the caller. -/
theorem c4_contraexemplo_indistinguivel :
    encontrar_posicoes [["S", "1", "E"]] = (some (0, 0), some (0, 2)) ∧
    resultado_busca [["S", "1", "E"]] = ResA.semCaminho ∧
    encontrar_posicoes [["0"]] = (none, none) ∧
    algoritmo_a_estrela [["S", "1", "E"]] = none ∧
    algoritmo_a_estrela [["0"]] = none ∧
    algoritmo_a_estrela [["S", "1", "E"]] = algoritmo_a_estrela [["0"]] := by
  refine ⟨?_, ?_, ?_, ?_, ?_, ?_⟩ <;> decide

/-- C7, counterexample: two frontier entries with equal `f_cost` 5; the
entry popped is the one with the larger `h_cost` (1 versus 0), so pops are
not minimal under the claimed lexicographic
(f ascending, then h ascending, then insertion order) ordering — `Node`
carries no sequence number and `Node.__lt__` compares only `f_cost`. -/
theorem c7_contraexemplo_sem_desempate :
    (heappop (heappush (heappush [] (Node.raiz (0, 0) 4 1 5))
        (Node.raiz (0, 1) 5 0 5))).1 = Node.raiz (0, 0) 4 1 5 ∧
    (Node.raiz (0, 1) 5 0 5).f_cost ≤ (Node.raiz (0, 0) 4 1 5).f_cost ∧
    (Node.raiz (0, 1) 5 0 5).h_cost < (Node.raiz (0, 0) 4 1 5).h_cost := by
  refine ⟨?_, ?_, ?_⟩ <;> decide

/-- C2, counterexample: a relaxation in which a strictly better tentative
cost (1 < 5) is found for the neighbour `(0,1)` already in the open set:
the engine does not push a new entry — the frontier keeps length 1, the
stale entry is overwritten in place by the improved node. -/
theorem c2_contraexemplo_substituicao :
    (relaxar (Node.raiz (0, 0) 0 2 2) (0, 2)
        ⟨[Node.raiz (0, 1) 5 1 6], {(0, 1)}, ∅, [["S", "0", "E"]]⟩
        (0, 1)).fila_aberta
      = [Node.filho (0, 1) 1 1 2 (Node.raiz (0, 0) 0 2 2)] ∧
    (Node.raiz (0, 0) 0 2 2).g_cost + 1 < (Node.raiz (0, 1) 5 1 6).g_cost ∧
    [Node.filho (0, 1) 1 1 2 (Node.raiz (0, 0) 0 2 2)].length
      = [Node.raiz (0, 1) 5 1 6].length ∧
    Node.raiz (0, 1) 5 1 6 ∉
      [Node.filho (0, 1) 1 1 2 (Node.raiz (0, 0) 0 2 2)] := by
  refine ⟨?_, ?_, ?_, ?_⟩ <;> decide

/-!
## Structural lemmas about the heap operations

Lengths are preserved and the operations permute their input (push adds
the item, pop splits off the returned item, replace-then-heapify keeps a
permutation of the overwritten list).
-/

/-- Sifting down preserves the length of the list. -/
theorem siftdownGo_length (novo : Node) :
    ∀ (fuel : Nat) (heap : List Node) (s p : Nat),
      (siftdownGo novo fuel heap s p).length = heap.length := by
  intro fuel
  induction fuel with
  | zero => intro heap s p; simp [siftdownGo]
  | succ n ih =>
    intro heap s p
    simp only [siftdownGo]
    split
    · split
      · exact (ih _ _ _).trans (List.length_set _ _ _)
      · exact List.length_set _ _ _
    · exact List.length_set _ _ _

/-- `heapq._siftdown` preserves the length. -/
theorem siftdownPy_length (heap : List Node) (s p : Nat) :
    (siftdownPy heap s p).length = heap.length := by
  simpa [siftdownPy] using siftdownGo_length _ _ _ _ _

/-- Sifting up preserves the length of the list. -/
theorem siftupGo_length (endpos : Nat) (novo : Node) :
    ∀ (fuel : Nat) (heap : List Node) (s p : Nat),
      (siftupGo endpos novo fuel heap s p).length = heap.length := by
  intro fuel
  induction fuel with
  | zero => intro heap s p; simp [siftupGo, siftdownPy_length]
  | succ n ih =>
    intro heap s p
    simp only [siftupGo]
    split
    · exact (ih _ _ _).trans (List.length_set _ _ _)
    · exact (siftdownPy_length _ _ _).trans (List.length_set _ _ _)

/-- `heapq._siftup` preserves the length. -/
theorem siftupPy_length (heap : List Node) (p : Nat) :
    (siftupPy heap p).length = heap.length := by
  simpa [siftupPy] using siftupGo_length _ _ _ _ _ _

/-- `heapq.heappush` grows the list by one. -/
theorem heappush_length (heap : List Node) (item : Node) :
    (heappush heap item).length = heap.length + 1 := by
  simp [heappush, siftdownPy_length]

/-- `heapq.heappop` shrinks the list by one. -/
theorem heappop_length (heap : List Node) :
    (heappop heap).2.length = heap.length - 1 := by
  simp only [heappop, List.isEmpty_iff]
  by_cases h : heap.dropLast = []
  · have hlen := congrArg List.length h
    simp only [List.length_dropLast, List.length_nil] at hlen
    simp [if_pos h, h]
    omega
  · simp [if_neg h, siftupPy_length, List.length_set, List.length_dropLast]

/-- `heapq.heapify` preserves the length. -/
theorem heapify_length (heap : List Node) :
    (heapify heap).length = heap.length := by
  simp only [heapify]
  generalize (List.range (heap.length / 2)).reverse = idx
  induction idx generalizing heap with
  | nil => rfl
  | cons i tl ih =>
    rw [List.foldl_cons, ih (siftupPy heap i), siftupPy_length]

/-- Replacing index `i` by `x` turns `x :: l` into
`l[i] :: (l.set i x)` up to permutation. -/
theorem perm_getD_set_cons (l : List Node) (i : Nat) (x : Node)
    (h : i < l.length) :
    (x :: l).Perm (l.getD i default :: l.set i x) := by
  induction l generalizing i with
  | nil => simp at h
  | cons a tl ih =>
    cases i with
    | zero => simpa using List.Perm.swap a x tl
    | succ n =>
      have h' : n < tl.length := by simpa using h
      have t1 : (x :: a :: tl).Perm (a :: x :: tl) := List.Perm.swap a x tl
      have t2 : (a :: x :: tl).Perm
          (a :: (tl.getD n default :: tl.set n x)) := (ih n h').cons a
      have t3 : (a :: tl.getD n default :: tl.set n x).Perm
          (tl.getD n default :: a :: tl.set n x) :=
        List.Perm.swap (tl.getD n default) a _
      simpa using (t1.trans t2).trans t3

/-- Writing the element already at `p`, back at `p`, changes nothing. -/
theorem set_getD_self (l : List Node) (p : Nat) (hp : p < l.length) :
    l.set p (l.getD p default) = l := by
  apply List.ext_getElem?
  intro n
  rw [List.getElem?_set]
  by_cases h : p = n
  · subst h
    simp [hp, List.getD_eq_getElem?_getD, List.getElem?_eq_getElem hp]
  · simp [h]

/-- Moving `l[pp]` to slot `p` and then overwriting slot `pp` with `x`
is, up to permutation, just overwriting slot `p` with `x`. -/
theorem set_set_perm (l : List Node) (p pp : Nat) (x : Node)
    (hp : p < l.length) (hpp : pp < l.length) (hne : pp ≠ p) :
    ((l.set p (l.getD pp default)).set pp x).Perm (l.set p x) := by
  have hApp : (l.set p (l.getD pp default)).getD pp default
      = l.getD pp default := by
    simp [List.getD_eq_getElem?_getD, List.getElem?_set_ne (Ne.symm hne)]
  have P1 : (x :: (l.set p (l.getD pp default))).Perm
      (l.getD pp default :: (l.set p (l.getD pp default)).set pp x) := by
    have := perm_getD_set_cons (l.set p (l.getD pp default)) pp x
      (by rw [List.length_set]; exact hpp)
    rwa [hApp] at this
  have P2 : ((l.getD pp default) :: l).Perm
      (l.getD p default :: l.set p (l.getD pp default)) :=
    perm_getD_set_cons l p _ hp
  have P3 : (x :: l).Perm (l.getD p default :: l.set p x) :=
    perm_getD_set_cons l p x hp
  have t1 := P1.symm.cons (l.getD p default)
  have t2 := List.Perm.swap x (l.getD p default)
    (l.set p (l.getD pp default))
  have t3 := P2.symm.cons x
  have t4 := List.Perm.swap (l.getD pp default) x l
  have t5 := P3.cons (l.getD pp default)
  have t6 := List.Perm.swap (l.getD p default) (l.getD pp default)
    (l.set p x)
  exact (((((((t1.trans t2).trans t3).trans t4).trans t5).trans
    t6).cons_inv).cons_inv)

/-- Sifting down permutes the list into `heap.set p novo`. -/
theorem siftdownGo_perm (novo : Node) :
    ∀ (fuel : Nat) (heap : List Node) (s p : Nat), p < heap.length →
      (siftdownGo novo fuel heap s p).Perm (heap.set p novo) := by
  intro fuel
  induction fuel with
  | zero => intro heap s p _; exact .refl _
  | succ n ih =>
    intro heap s p hp
    simp only [siftdownGo]
    split
    case isTrue h1 =>
      split
      case isTrue h2 =>
        have hpar : (p - 1) / 2 < p :=
          Nat.lt_of_le_of_lt (Nat.div_le_self _ _)
            (Nat.pred_lt (Nat.pos_iff_ne_zero.mp
              (Nat.lt_of_le_of_lt (Nat.zero_le s) h1)))
        have ihp := ih (heap.set p (heap.getD ((p - 1) / 2) default)) s
          ((p - 1) / 2)
          (by rw [List.length_set]; exact lt_trans hpar hp)
        exact ihp.trans (set_set_perm heap p ((p - 1) / 2) novo hp
          (lt_trans hpar hp) (Nat.ne_of_lt hpar))
      case isFalse h2 => exact .refl _
    case isFalse h1 => exact .refl _

/-- `heapq._siftdown` permutes the list (it reinserts the saved item). -/
theorem siftdownPy_perm (heap : List Node) (s p : Nat)
    (hp : p < heap.length) : (siftdownPy heap s p).Perm heap := by
  have := siftdownGo_perm (heap.getD p default) p heap s p hp
  rwa [set_getD_self heap p hp] at this

/-- Sifting up permutes the list into `heap.set p novo`. -/
theorem siftupGo_perm (endpos : Nat) (novo : Node) :
    ∀ (fuel : Nat) (heap : List Node) (s p : Nat), p < heap.length →
      endpos ≤ heap.length →
      (siftupGo endpos novo fuel heap s p).Perm (heap.set p novo) := by
  have base : ∀ (heap : List Node) (s p : Nat), p < heap.length →
      (siftdownPy (heap.set p novo) s p).Perm (heap.set p novo) := by
    intro heap s p hp
    exact siftdownPy_perm (heap.set p novo) s p
      (by rw [List.length_set]; exact hp)
  intro fuel
  induction fuel with
  | zero => intro heap s p hp _; exact base heap s p hp
  | succ n ih =>
    intro heap s p hp hend
    simp only [siftupGo]
    split
    case isTrue h1 =>
      set c2 := if 2 * p + 1 + 1 < endpos ∧
          ¬ ((heap.getD (2 * p + 1) default).f_cost <
             (heap.getD (2 * p + 1 + 1) default).f_cost)
        then 2 * p + 1 + 1 else 2 * p + 1 with hc2
      have hcp : p < c2 := by
        rw [hc2]; split <;> omega
      have hclen : c2 < heap.length := by
        have : c2 < endpos := by
          rw [hc2]; split
          case isTrue h => exact h.1
          case isFalse h => exact h1
        exact lt_of_lt_of_le this hend
      have ihp := ih (heap.set p (heap.getD c2 default)) s c2
        (by rw [List.length_set]; exact hclen)
        (by rw [List.length_set]; exact hend)
      exact ihp.trans (set_set_perm heap p c2 novo hp hclen
        (Nat.ne_of_gt hcp))
    case isFalse h1 => exact base heap s p hp

/-- `heapq._siftup` permutes the list. -/
theorem siftupPy_perm (heap : List Node) (p : Nat) (hp : p < heap.length) :
    (siftupPy heap p).Perm heap := by
  have := siftupGo_perm heap.length (heap.getD p default) heap.length
    heap p p hp (le_refl _)
  rwa [set_getD_self heap p hp] at this

/-- `heapq.heappush` produces a permutation of `item :: heap`. -/
theorem heappush_perm (heap : List Node) (item : Node) :
    (heappush heap item).Perm (item :: heap) := by
  have h1 : heap.length < (heap ++ [item]).length := by simp
  have h2 := siftdownPy_perm (heap ++ [item]) 0 heap.length h1
  exact h2.trans (List.perm_append_singleton item heap)

/-- For a nonempty list, decomposition into `dropLast` plus the
`getLastD`. -/
theorem dropLast_append_getLastD (heap : List Node) (h : heap ≠ []) :
    heap.dropLast ++ [heap.getLastD default] = heap := by
  rw [List.getLastD_eq_getLast?, List.getLast?_eq_getLast heap h]
  exact List.dropLast_append_getLast h

/-- `heapq.heappop` returns the root of a nonempty heap. -/
theorem heappop_fst (heap : List Node) (h : heap ≠ []) :
    (heappop heap).1 = heap.getD 0 default := by
  simp only [heappop, List.isEmpty_iff]
  by_cases hd : heap.dropLast = []
  · have hx := dropLast_append_getLastD heap h
    rw [hd] at hx
    simp only [List.nil_append] at hx
    rw [if_pos hd, ← hx]
    rfl
  · have h0 : 0 < heap.dropLast.length := List.length_pos.mpr hd
    simp only [if_neg hd]
    rw [List.getD_eq_getElem?_getD, List.getD_eq_getElem?_getD,
      List.getElem?_dropLast]
    have : 0 < heap.length - 1 := by
      have := List.length_dropLast heap
      omega
    simp [this]

/-- `heapq.heappop` splits a nonempty heap into the returned root and a
permutation of the rest. -/
theorem heappop_perm (heap : List Node) (h : heap ≠ []) :
    heap.Perm ((heappop heap).1 :: (heappop heap).2) := by
  simp only [heappop, List.isEmpty_iff]
  by_cases hd : heap.dropLast = []
  · have hx := dropLast_append_getLastD heap h
    rw [hd] at hx
    simp only [List.nil_append] at hx
    rw [if_pos hd, hd]
    conv_lhs => rw [← hx]
  · have h0 : 0 < heap.dropLast.length := List.length_pos.mpr hd
    simp only [if_neg hd]
    have hperm1 : heap.Perm (heap.getLastD default :: heap.dropLast) := by
      conv_lhs => rw [← dropLast_append_getLastD heap h]
      exact List.perm_append_singleton _ _
    have hperm2 : (heap.getLastD default :: heap.dropLast).Perm
        (heap.dropLast.getD 0 default ::
          heap.dropLast.set 0 (heap.getLastD default)) :=
      perm_getD_set_cons heap.dropLast 0 (heap.getLastD default) h0
    have hperm3 : (siftupPy
        (heap.dropLast.set 0 (heap.getLastD default)) 0).Perm
        (heap.dropLast.set 0 (heap.getLastD default)) :=
      siftupPy_perm _ 0 (by rw [List.length_set]; exact h0)
    exact (hperm1.trans hperm2).trans (hperm3.symm.cons _)

/-- `heapq.heapify` permutes the list. -/
theorem heapify_perm (heap : List Node) : (heapify heap).Perm heap := by
  simp only [heapify]
  have key : ∀ (idx : List Nat) (h : List Node),
      (∀ i ∈ idx, i < h.length) →
      (idx.foldl (fun h2 i => siftupPy h2 i) h).Perm h := by
    intro idx
    induction idx with
    | nil => intro h _; exact .refl _
    | cons i tl ih =>
      intro h hmem
      have hi : i < h.length := hmem i (by simp)
      have hperm := siftupPy_perm h i hi
      have hlen : (siftupPy h i).length = h.length := siftupPy_length h i
      have hsub : ∀ j ∈ tl, j < (siftupPy h i).length := by
        intro j hj
        rw [hlen]
        exact hmem j (List.mem_cons_of_mem _ hj)
      have h2 := ih (siftupPy h i) hsub
      rw [List.foldl_cons]
      exact (h2.trans hperm)
  apply key
  intro i hi
  rw [List.mem_reverse, List.mem_range] at hi
  have : heap.length / 2 ≤ heap.length := Nat.div_le_self _ _
  omega

/-!
## Frame property and the relaxation behaviour
-/

/-- One relaxation never touches the maze field of the state. -/
theorem relaxar_labirinto (no_atual : Node) (pos_final : Pos) (st : AState)
    (pv : Pos) : (relaxar no_atual pos_final st pv).labirinto = st.labirinto := by
  unfold relaxar
  split
  · rfl
  · dsimp only
    split
    · split
      · split <;> rfl
      · rfl
    · rfl

/-- Expansion never touches the maze field of the state. -/
theorem expandir_labirinto (no_atual : Node) (pos_final : Pos)
    (st : AState) : (expandir no_atual pos_final st).labirinto = st.labirinto := by
  unfold expandir
  generalize obter_vizinhos no_atual.position st.labirinto = l
  induction l generalizing st with
  | nil => rfl
  | cons p tl ih =>
    rw [List.foldl_cons]
    rw [ih (relaxar no_atual pos_final st p)]
    exact relaxar_labirinto no_atual pos_final st p

/-- C9: the search never modifies the maze — after any number of
iterations of the main loop, the maze component of the search state is
the maze that was passed in, whether the run ends in success, in
exhaustion, or out of fuel (and on missing-marker inputs the state is
never even built). -/
theorem c9_labirinto_imutavel (pos_final : Pos) :
    ∀ (fuel : Nat) (s : AState),
      ((laco pos_final fuel s).2).labirinto = s.labirinto := by
  intro fuel
  induction fuel with
  | zero => intro s; rfl
  | succ n ih =>
    intro s
    simp only [laco]
    split
    · rfl
    · split
      · rfl
      · rw [ih]
        rw [expandir_labirinto]

/-- C2, amended: behaviour of a relaxation on a neighbour that is not
closed — when the neighbour is already in the open set the engine never
pushes: the queue keeps its length (the stale entry is, at best,
overwritten in place and re-heapified) and the open set is unchanged;
only when the neighbour is not in the open set is a single new entry
pushed, and the position then becomes open. -/
theorem c2_substitui_em_vez_de_push (no_atual : Node) (pos_final : Pos)
    (st : AState) (pv : Pos) :
    (pv ∉ st.conjunto_fechado → pv ∈ st.conjunto_aberto →
      (relaxar no_atual pos_final st pv).fila_aberta.length
        = st.fila_aberta.length ∧
      (relaxar no_atual pos_final st pv).conjunto_aberto
        = st.conjunto_aberto) ∧
    (pv ∉ st.conjunto_fechado → pv ∉ st.conjunto_aberto →
      (relaxar no_atual pos_final st pv).fila_aberta.length
        = st.fila_aberta.length + 1 ∧
      (relaxar no_atual pos_final st pv).conjunto_aberto
        = insert pv st.conjunto_aberto) := by
  constructor
  · intro hf ha
    simp only [relaxar, if_neg hf, if_pos ha]
    cases hidx : st.fila_aberta.findIdx?
        (fun nf => decide (nf.position = pv)) with
    | none => simp [hidx]
    | some i =>
      simp only [hidx]
      split
      · simp [heapify_length, List.length_set]
      · simp
  · intro hf ha
    simp only [relaxar, if_neg hf, if_neg ha]
    simp [heappush_length]

/-- Witness for the amended C2 theorem at an explicit state: the in-open
case keeps the queue at length 1, the not-open case pushes to length 2. -/
theorem c2_substitui_em_vez_de_push_witness :
    (((0, 1) : Pos) ∉ (∅ : Finset Pos) ∧
      ((0, 1) : Pos) ∈ ({((0, 1) : Pos)} : Finset Pos) ∧
      (relaxar (Node.raiz (0, 0) 0 2 2) (0, 2)
        ⟨[Node.raiz (0, 1) 5 1 6], {(0, 1)}, ∅, [["S", "0", "E"]]⟩
        (0, 1)).fila_aberta.length = [Node.raiz (0, 1) 5 1 6].length) ∧
    (((0, 2) : Pos) ∉ (∅ : Finset Pos) ∧
      ((0, 2) : Pos) ∉ ({((0, 1) : Pos)} : Finset Pos) ∧
      (relaxar (Node.raiz (0, 0) 0 2 2) (0, 2)
        ⟨[Node.raiz (0, 1) 5 1 6], {(0, 1)}, ∅, [["S", "0", "E"]]⟩
        (0, 2)).fila_aberta.length
        = [Node.raiz (0, 1) 5 1 6].length + 1) := by
  refine ⟨⟨by decide, by decide, ?_⟩, ⟨by decide, by decide, ?_⟩⟩
  · exact ((c2_substitui_em_vez_de_push (Node.raiz (0, 0) 0 2 2) (0, 2)
      ⟨[Node.raiz (0, 1) 5 1 6], {(0, 1)}, ∅, [["S", "0", "E"]]⟩
      (0, 1)).1 (by decide) (by decide)).1
  · exact ((c2_substitui_em_vez_de_push (Node.raiz (0, 0) 0 2 2) (0, 2)
      ⟨[Node.raiz (0, 1) 5 1 6], {(0, 1)}, ∅, [["S", "0", "E"]]⟩
      (0, 2)).2 (by decide) (by decide)).1

/-- Absent start or goal marker makes the engine return `None` before any
search step. -/
theorem algoritmo_none_de_marcador_ausente (labirinto : List (List String))
    (h : (encontrar_posicoes labirinto).1 = none ∨
      (encontrar_posicoes labirinto).2 = none) :
    algoritmo_a_estrela labirinto = none := by
  unfold algoritmo_a_estrela resultado_busca
  rcases hE : encontrar_posicoes labirinto with ⟨a, b⟩
  rw [hE] at h
  cases a <;> cases b <;> simp_all

/-- C3, amended: a maze whose start-marker count or goal-marker count is
zero yields `None` and the search does not start; no count is reported
(the return type carries no such information), and a maze with 2+ copies
of a marker is *not* rejected — see the counterexample, where the search
proceeds from the last occurrence. -/
theorem c3_ausente_devolve_none (labirinto : List (List String))
    (h : (encontrar_posicoes labirinto).1 = none ∨
      (encontrar_posicoes labirinto).2 = none) :
    algoritmo_a_estrela labirinto = none :=
  algoritmo_none_de_marcador_ausente labirinto h

/-- Witness for the amended C3 theorem on the marker-free maze `[["0"]]`. -/
theorem c3_ausente_devolve_none_witness :
    ((encontrar_posicoes [["0"]]).1 = none ∨
      (encontrar_posicoes [["0"]]).2 = none) ∧
    algoritmo_a_estrela [["0"]] = none :=
  ⟨Or.inl (by decide), c3_ausente_devolve_none [["0"]] (Or.inl (by decide))⟩

/-- C4, amended: whenever one input passes validation but its search ends
in exhaustion, and another input fails validation, the two values the
caller receives are both `None` — equal, hence not distinguishable. -/
theorem c4_resultados_iguais (g1 g2 : List (List String))
    (pos_inicial pos_final : Pos)
    (_h1 : encontrar_posicoes g1 = (some pos_inicial, some pos_final))
    (h2 : resultado_busca g1 = ResA.semCaminho)
    (h3 : (encontrar_posicoes g2).1 = none ∨
      (encontrar_posicoes g2).2 = none) :
    algoritmo_a_estrela g1 = none ∧ algoritmo_a_estrela g2 = none ∧
      algoritmo_a_estrela g1 = algoritmo_a_estrela g2 := by
  have e1 : algoritmo_a_estrela g1 = none := by
    unfold algoritmo_a_estrela
    rw [h2]
  have e2 : algoritmo_a_estrela g2 = none :=
    algoritmo_none_de_marcador_ausente g2 h3
  exact ⟨e1, e2, e1.trans e2.symm⟩

/-- Witness for the amended C4 theorem: exhaustion on `S 1 E` versus
missing markers on `[["0"]]`. -/
theorem c4_resultados_iguais_witness :
    encontrar_posicoes [["S", "1", "E"]] = (some (0, 0), some (0, 2)) ∧
    resultado_busca [["S", "1", "E"]] = ResA.semCaminho ∧
    ((encontrar_posicoes [["0"]]).1 = none ∨
      (encontrar_posicoes [["0"]]).2 = none) ∧
    (algoritmo_a_estrela [["S", "1", "E"]] = none ∧
      algoritmo_a_estrela [["0"]] = none ∧
      algoritmo_a_estrela [["S", "1", "E"]] = algoritmo_a_estrela [["0"]]) :=
  ⟨by decide, by decide, Or.inl (by decide),
    c4_resultados_iguais [["S", "1", "E"]] [["0"]] (0, 0) (0, 2)
      (by decide) (by decide) (Or.inl (by decide))⟩

/-!
## Effect of one relaxation on the state
-/

/-- A closed neighbour leaves the state untouched. -/
theorem relaxar_fechado (no_atual : Node) (pos_final : Pos) (st : AState)
    (pv : Pos) (h : pv ∈ st.conjunto_fechado) :
    relaxar no_atual pos_final st pv = st := by
  unfold relaxar
  rw [if_pos h]

/-- The node built by `Node.__init__` carries the given position. -/
theorem novo_position (pv : Pos) (g h : Int) (par : Option Node) :
    (Node.novo pv g h par).position = pv := by
  cases par <;> rfl

/-- The node built by `Node.__init__` carries the given `g_cost`. -/
theorem novo_g_cost (pv : Pos) (g h : Int) (par : Option Node) :
    (Node.novo pv g h par).g_cost = g := by
  cases par <;> rfl

/-- The node built by `Node.__init__` carries the given `h_cost`. -/
theorem novo_h_cost (pv : Pos) (g h : Int) (par : Option Node) :
    (Node.novo pv g h par).h_cost = h := by
  cases par <;> rfl

/-- The node built by `Node.__init__` has `f_cost = g + h`. -/
theorem novo_f_cost (pv : Pos) (g h : Int) (par : Option Node) :
    (Node.novo pv g h par).f_cost = g + h := by
  cases par <;> rfl

/-- Overwriting a slot with the value it already holds changes nothing
(general version). -/
theorem set_posicao_propria {α : Type} (l : List α) (i : Nat) (x : α)
    (hi : i < l.length) (hx : l[i] = x) : l.set i x = l := by
  apply List.ext_getElem?
  intro n
  rw [List.getElem?_set]
  by_cases h : i = n
  · subst h
    simp [hi, ← hx, List.getElem?_eq_getElem hi]
  · simp [h]

/-- Relaxing a neighbour that is already open: the queue's position
multiset and both marker sets are unchanged. -/
theorem relaxar_aberto (no_atual : Node) (pos_final : Pos) (st : AState)
    (pv : Pos) (hf : pv ∉ st.conjunto_fechado) (ha : pv ∈ st.conjunto_aberto) :
    ((relaxar no_atual pos_final st pv).fila_aberta.map Node.position).Perm
      (st.fila_aberta.map Node.position) ∧
    (relaxar no_atual pos_final st pv).conjunto_aberto
      = st.conjunto_aberto ∧
    (relaxar no_atual pos_final st pv).conjunto_fechado
      = st.conjunto_fechado := by
  simp only [relaxar, if_neg hf, if_pos ha]
  cases hidx : st.fila_aberta.findIdx?
      (fun nf => decide (nf.position = pv)) with
  | none => exact ⟨.refl _, by trivial, by trivial⟩
  | some i =>
    simp only [hidx]
    split
    · refine ⟨?_, by trivial, by trivial⟩
      obtain ⟨hlt, hpred, _⟩ := List.findIdx?_eq_some_iff_getElem.mp hidx
      have hpos : (st.fila_aberta[i]).position = pv := by simpa using hpred
      have hperm := (heapify_perm (st.fila_aberta.set i
        (Node.novo pv (no_atual.g_cost + 1)
          (heuristica_manhattan pv pos_final) (some no_atual)))).map
        Node.position
      rw [List.map_set, novo_position] at hperm
      have heq := set_posicao_propria (st.fila_aberta.map Node.position)
        i pv (by rw [List.length_map]; exact hlt)
        (by rw [List.getElem_map]; exact hpos)
      rw [heq] at hperm
      exact hperm
    · exact ⟨.refl _, by trivial, by trivial⟩

/-- Relaxing a neighbour that is neither closed nor open: a single entry
for that position is pushed and the position becomes open. -/
theorem relaxar_fresco (no_atual : Node) (pos_final : Pos) (st : AState)
    (pv : Pos) (hf : pv ∉ st.conjunto_fechado) (ha : pv ∉ st.conjunto_aberto) :
    ((relaxar no_atual pos_final st pv).fila_aberta.map Node.position).Perm
      (pv :: st.fila_aberta.map Node.position) ∧
    (relaxar no_atual pos_final st pv).conjunto_aberto
      = insert pv st.conjunto_aberto ∧
    (relaxar no_atual pos_final st pv).conjunto_fechado
      = st.conjunto_fechado := by
  simp only [relaxar, if_neg hf, if_neg ha]
  refine ⟨?_, by trivial, by trivial⟩
  have hperm := (heappush_perm st.fila_aberta
    (Node.novo pv (no_atual.g_cost + 1)
      (heuristica_manhattan pv pos_final) (some no_atual))).map Node.position
  simpa [novo_position] using hperm

/-!
## Preservation of the structural invariant and of the measure
-/

/-- One relaxation preserves the structural invariant and the measure. -/
theorem invEstr_relaxar (B : Finset Pos) (no_atual : Node) (pos_final : Pos)
    (st : AState) (pv : Pos) (hB : pv ∈ B) (inv : InvEstrutural B st) :
    InvEstrutural B (relaxar no_atual pos_final st pv) ∧
      medida B (relaxar no_atual pos_final st pv) = medida B st := by
  have hlab := relaxar_labirinto no_atual pos_final st pv
  by_cases hf : pv ∈ st.conjunto_fechado
  · rw [relaxar_fechado no_atual pos_final st pv hf]
    exact ⟨inv, rfl⟩
  · by_cases ha : pv ∈ st.conjunto_aberto
    · obtain ⟨hperm, hab, hfe⟩ := relaxar_aberto no_atual pos_final st pv hf ha
      have hlen : (relaxar no_atual pos_final st pv).fila_aberta.length
          = st.fila_aberta.length := by
        have h2 := hperm.length_eq
        rwa [List.length_map, List.length_map] at h2
      refine ⟨⟨hperm.nodup_iff.mpr inv.nodup, ?_, ?_, ?_, ?_, ?_⟩, ?_⟩
      · intro p
        rw [hab, hperm.mem_iff]
        exact inv.abeq p
      · rw [hab, hfe]; exact inv.disj
      · rw [hab]; exact inv.abB
      · rw [hfe]; exact inv.feB
      · simp only [hlab]; exact inv.vizB
      · unfold medida
        rw [hab, hfe, hlen]
    · obtain ⟨hperm, hab, hfe⟩ := relaxar_fresco no_atual pos_final st pv hf ha
      have hpvpos : pv ∉ st.fila_aberta.map Node.position :=
        fun hc => ha ((inv.abeq pv).mpr hc)
      have hlen : (relaxar no_atual pos_final st pv).fila_aberta.length
          = st.fila_aberta.length + 1 := by
        have h2 := hperm.length_eq
        rw [List.length_map] at h2
        simpa using h2
      have hmem : pv ∈ B \ (st.conjunto_aberto ∪ st.conjunto_fechado) := by
        rw [Finset.mem_sdiff, Finset.mem_union]
        exact ⟨hB, by tauto⟩
      refine ⟨⟨hperm.nodup_iff.mpr (List.nodup_cons.mpr ⟨hpvpos, inv.nodup⟩),
        ?_, ?_, ?_, ?_, ?_⟩, ?_⟩
      · intro p
        rw [hab, hperm.mem_iff, Finset.mem_insert, List.mem_cons]
        exact or_congr_right (inv.abeq p)
      · intro p hp
        rw [hfe]
        rcases Finset.mem_insert.mp (hab ▸ hp) with h | h
        · subst h; exact hf
        · exact inv.disj p h
      · intro p hp
        rcases Finset.mem_insert.mp (hab ▸ hp) with h | h
        · subst h; exact hB
        · exact inv.abB p h
      · rw [hfe]; exact inv.feB
      · simp only [hlab]; exact inv.vizB
      · unfold medida
        rw [hab, hfe, hlen, Finset.insert_union, Finset.sdiff_insert,
          Finset.card_erase_of_mem hmem]
        have hpos : 0 < (B \ (st.conjunto_aberto ∪ st.conjunto_fechado)).card :=
          Finset.card_pos.mpr ⟨pv, hmem⟩
        omega

/-- Folding relaxations over any list of in-`B` neighbours preserves the
structural invariant and the measure. -/
theorem invEstr_fold (B : Finset Pos) (no_atual : Node) (pos_final : Pos) :
    ∀ (l : List Pos) (st : AState), (∀ q ∈ l, q ∈ B) →
      InvEstrutural B st →
      InvEstrutural B (l.foldl (relaxar no_atual pos_final) st) ∧
        medida B (l.foldl (relaxar no_atual pos_final) st) = medida B st := by
  intro l
  induction l with
  | nil => intro st _ inv; exact ⟨inv, rfl⟩
  | cons q tl ih =>
    intro st hq inv
    rw [List.foldl_cons]
    obtain ⟨inv1, hm1⟩ := invEstr_relaxar B no_atual pos_final st q
      (hq q (by simp)) inv
    obtain ⟨inv2, hm2⟩ := ih (relaxar no_atual pos_final st q)
      (fun r hr => hq r (List.mem_cons_of_mem _ hr)) inv1
    exact ⟨inv2, hm2.trans hm1⟩

/-- Expansion of a node preserves the structural invariant and the
measure. -/
theorem invEstr_expandir (B : Finset Pos) (no_atual : Node) (pos_final : Pos)
    (st : AState) (inv : InvEstrutural B st) :
    InvEstrutural B (expandir no_atual pos_final st) ∧
      medida B (expandir no_atual pos_final st) = medida B st := by
  unfold expandir
  exact invEstr_fold B no_atual pos_final _ st
    (fun q hq => inv.vizB no_atual.position q hq) inv

/-- The pop-and-close step of the main loop preserves the structural
invariant and decreases the measure by exactly one; the popped position
was open. -/
theorem invEstr_pop (B : Finset Pos) (st : AState)
    (hne : st.fila_aberta ≠ []) (inv : InvEstrutural B st) :
    InvEstrutural B
      { fila_aberta := (heappop st.fila_aberta).2,
        conjunto_aberto :=
          st.conjunto_aberto.erase (heappop st.fila_aberta).1.position,
        conjunto_fechado :=
          insert (heappop st.fila_aberta).1.position st.conjunto_fechado,
        labirinto := st.labirinto } ∧
    medida B
      { fila_aberta := (heappop st.fila_aberta).2,
        conjunto_aberto :=
          st.conjunto_aberto.erase (heappop st.fila_aberta).1.position,
        conjunto_fechado :=
          insert (heappop st.fila_aberta).1.position st.conjunto_fechado,
        labirinto := st.labirinto } + 1 = medida B st ∧
    (heappop st.fila_aberta).1.position ∈ st.conjunto_aberto := by
  have hperm := (heappop_perm st.fila_aberta hne).map Node.position
  rw [List.map_cons] at hperm
  have hup : (heappop st.fila_aberta).1.position
      ∈ st.fila_aberta.map Node.position :=
    hperm.mem_iff.mpr (List.mem_cons_self _ _)
  have huab : (heappop st.fila_aberta).1.position ∈ st.conjunto_aberto :=
    (inv.abeq _).mpr hup
  have hnods := hperm.nodup_iff.mp inv.nodup
  rw [List.nodup_cons] at hnods
  obtain ⟨hnotin, hnod2⟩ := hnods
  have habeq2 : ∀ p : Pos,
      p ∈ st.conjunto_aberto.erase (heappop st.fila_aberta).1.position ↔
      p ∈ (heappop st.fila_aberta).2.map Node.position := by
    intro p
    rw [Finset.mem_erase]
    constructor
    · rintro ⟨hpne, hpab⟩
      have := hperm.mem_iff.mp ((inv.abeq p).mp hpab)
      rcases List.mem_cons.mp this with h | h
      · exact absurd h hpne
      · exact h
    · intro hp
      refine ⟨?_, (inv.abeq p).mpr
        (hperm.mem_iff.mpr (List.mem_cons_of_mem _ hp))⟩
      intro hcontra
      exact hnotin (hcontra ▸ hp)
  have hsets : (st.conjunto_aberto.erase (heappop st.fila_aberta).1.position)
      ∪ (insert (heappop st.fila_aberta).1.position st.conjunto_fechado)
      = st.conjunto_aberto ∪ st.conjunto_fechado := by
    ext p
    simp only [Finset.mem_union, Finset.mem_erase, Finset.mem_insert]
    constructor
    · rintro (⟨_, hab⟩ | (heqp | hfe))
      · exact Or.inl hab
      · exact Or.inl (heqp ▸ huab)
      · exact Or.inr hfe
    · rintro (hab | hfe)
      · by_cases heqp : p = (heappop st.fila_aberta).1.position
        · exact Or.inr (Or.inl heqp)
        · exact Or.inl ⟨heqp, hab⟩
      · exact Or.inr (Or.inr hfe)
  have hlen2 : (heappop st.fila_aberta).2.length = st.fila_aberta.length - 1 :=
    heappop_length st.fila_aberta
  have hlenpos : 0 < st.fila_aberta.length := List.length_pos.mpr hne
  refine ⟨⟨hnod2, habeq2, ?_, ?_, ?_, inv.vizB⟩, ?_, huab⟩
  · intro p hp
    obtain ⟨hpne, hpab⟩ := Finset.mem_erase.mp hp
    intro hcl
    rcases Finset.mem_insert.mp hcl with h | h
    · exact hpne h
    · exact inv.disj p hpab h
  · intro p hp
    exact inv.abB p (Finset.mem_erase.mp hp).2
  · intro p hp
    rcases Finset.mem_insert.mp hp with h | h
    · exact h ▸ inv.abB _ huab
    · exact inv.feB p h
  · unfold medida
    rw [hsets, hlen2]
    omega

/-- The fuelled main loop never exhausts a fuel at least the measure. -/
theorem laco_nao_esgota (B : Finset Pos) (pos_final : Pos) :
    ∀ (fuel : Nat) (s : AState), InvEstrutural B s → medida B s ≤ fuel →
      (laco pos_final fuel s).1 ≠ ResA.semCombustivel := by
  intro fuel
  induction fuel with
  | zero =>
    intro s inv hm
    have hl : s.fila_aberta.length = 0 := by
      unfold medida at hm
      omega
    have hnil := List.length_eq_zero.mp hl
    simp [laco, hnil]
  | succ n ih =>
    intro s inv hm
    simp only [laco]
    split
    · simp
    · split
      · simp
      · rename_i hne0 hgoal
        have hne : s.fila_aberta ≠ [] := by
          simpa [List.isEmpty_iff] using hne0
        obtain ⟨inv3, hm3, hu⟩ := invEstr_pop B s hne inv
        obtain ⟨inv4, hm4⟩ := invEstr_expandir B (heappop s.fila_aberta).1
          pos_final _ inv3
        exact ih _ inv4 (by omega)

/-!
## Grid bounds and the initial state
-/

/-- Membership characterisation of the neighbour list. -/
theorem mem_obter_vizinhos {q : Pos} {p : Pos} {lab : List (List String)} :
    q ∈ obter_vizinhos p lab ↔
      ((∃ m ∈ movimentos, (p.1 + m.1, p.2 + m.2) = q) ∧
       (0 ≤ q.1 ∧ q.1 < (lab.length : Int) ∧ 0 ≤ q.2 ∧
        q.2 < ((lab.headD []).length : Int) ∧ celula lab q ≠ "1")) := by
  unfold obter_vizinhos
  rw [List.mem_filter, List.mem_map]
  simp only [decide_eq_true_eq]

/-- Every neighbour produced by `obter_vizinhos` is an in-bounds cell. -/
theorem vizinhos_na_grade (p q : Pos) (lab : List (List String))
    (h : q ∈ obter_vizinhos p lab) : q ∈ celulasGrade lab := by
  rw [mem_obter_vizinhos] at h
  obtain ⟨-, h1, h2, h3, h4, -⟩ := h
  unfold celulasGrade
  rw [Finset.mem_image]
  refine ⟨(q.1.toNat, q.2.toNat), ?_, ?_⟩
  · rw [Finset.mem_product, Finset.mem_range, Finset.mem_range]
    constructor <;> omega
  · simp only [Prod.ext_iff]
    constructor
    · simpa using Int.toNat_of_nonneg h1
    · simpa using Int.toNat_of_nonneg h3

/-- The grid has `rows × columns` cells. -/
theorem celulasGrade_card (lab : List (List String)) :
    (celulasGrade lab).card = lab.length * (lab.headD []).length := by
  unfold celulasGrade
  rw [Finset.card_image_of_injective, Finset.card_product,
    Finset.card_range, Finset.card_range]
  intro a b hab
  simp only [Prod.ext_iff] at hab ⊢
  exact_mod_cast hab

/-- Positions returned by `encontrar_posicoes` are indices of actual
cells of the maze. -/
theorem encontrar_em_grade (lab : List (List String)) :
    (∀ p : Pos, (encontrar_posicoes lab).1 = some p →
      ∃ i j : Nat, i < lab.length ∧ j < (lab.getD i []).length ∧
        p = ((i : Int), (j : Int))) ∧
    (∀ p : Pos, (encontrar_posicoes lab).2 = some p →
      ∃ i j : Nat, i < lab.length ∧ j < (lab.getD i []).length ∧
        p = ((i : Int), (j : Int))) := by
  unfold encontrar_posicoes
  refine @List.foldlRecOn (Option Pos × Option Pos) (Nat × List String)
    (fun acc =>
      (∀ p : Pos, acc.1 = some p → ∃ i j : Nat, i < lab.length ∧
        j < (lab.getD i []).length ∧ p = ((i : Int), (j : Int))) ∧
      (∀ p : Pos, acc.2 = some p → ∃ i j : Nat, i < lab.length ∧
        j < (lab.getD i []).length ∧ p = ((i : Int), (j : Int))))
    lab.enum _ (none, none) ⟨?_, ?_⟩ ?_
  · intro p hp; cases hp
  · intro p hp; cases hp
  · rintro acc hacc ⟨i, row⟩ hli
    obtain ⟨hi, hrow⟩ := List.mem_enum hli
    refine @List.foldlRecOn (Option Pos × Option Pos) (Nat × String)
      (fun acc =>
        (∀ p : Pos, acc.1 = some p → ∃ i j : Nat, i < lab.length ∧
          j < (lab.getD i []).length ∧ p = ((i : Int), (j : Int))) ∧
        (∀ p : Pos, acc.2 = some p → ∃ i j : Nat, i < lab.length ∧
          j < (lab.getD i []).length ∧ p = ((i : Int), (j : Int))))
      row.enum _ acc hacc ?_
    rintro acc2 hacc2 ⟨j, c⟩ hjc
    obtain ⟨hj, -⟩ := List.mem_enum hjc
    have hj2 : j < (lab.getD i []).length := by
      rw [List.getD_eq_getElem lab [] hi, ← hrow]
      exact hj
    by_cases hS : c = "S"
    · rw [if_pos hS]
      refine ⟨?_, ?_⟩
      · intro p hp
        simp only [Option.some_inj] at hp
        exact ⟨i, j, hi, hj2, hp.symm⟩
      · intro p hp
        exact hacc2.2 p hp
    · rw [if_neg hS]
      by_cases hE : c = "E"
      · rw [if_pos hE]
        refine ⟨?_, ?_⟩
        · intro p hp
          exact hacc2.1 p hp
        · intro p hp
          simp only [Option.some_inj] at hp
          exact ⟨i, j, hi, hj2, hp.symm⟩
      · rw [if_neg hE]
        exact hacc2

/-- Pushing on the empty queue yields the singleton queue. -/
theorem heappush_nil (x : Node) : heappush [] x = [x] := rfl

/-- The initial search state satisfies the structural invariant and its
measure is the cardinality of the bounding set. -/
theorem invEstr_inicial (lab : List (List String))
    (pos_inicial pos_final : Pos) (B : Finset Pos) (hpi : pos_inicial ∈ B)
    (hviz : ∀ p q : Pos, q ∈ obter_vizinhos p lab → q ∈ B) :
    InvEstrutural B (estado_inicial lab pos_inicial pos_final) ∧
    medida B (estado_inicial lab pos_inicial pos_final) = B.card := by
  constructor
  · refine ⟨?_, ?_, ?_, ?_, ?_, ?_⟩
    · simp [estado_inicial, heappush_nil]
    · intro p
      simp [estado_inicial, heappush_nil, novo_position]
    · intro p hp
      simp [estado_inicial]
    · intro p hp
      simp only [estado_inicial, Finset.mem_singleton] at hp
      exact hp ▸ hpi
    · intro p hp
      simp [estado_inicial] at hp
    · intro p q hq
      exact hviz p q hq
  · unfold medida estado_inicial
    simp only [heappush_nil, List.length_cons, List.length_nil,
      Finset.union_empty]
    rw [Finset.card_sdiff (Finset.singleton_subset_iff.mpr hpi),
      Finset.card_singleton]
    have hcard : 0 < B.card := Finset.card_pos.mpr ⟨pos_inicial, hpi⟩
    omega

/-- C10: on a rectangular non-empty maze the search terminates — the open
set blocks a re-push of a queued position and the closed set blocks a
re-push of an expanded one, so each position enters the frontier at most
once and the main loop performs at most rows × columns pop iterations:
with exactly that much fuel the loop never runs out. -/
theorem c10_terminacao (labirinto : List (List String))
    (pos_inicial pos_final : Pos) (hret : Retangular labirinto)
    (hS : encontrar_posicoes labirinto = (some pos_inicial, some pos_final)) :
    (laco pos_final (labirinto.length * (labirinto.headD []).length)
      (estado_inicial labirinto pos_inicial pos_final)).1
      ≠ ResA.semCombustivel := by
  obtain ⟨i, j, hi, hj, hp⟩ := (encontrar_em_grade labirinto).1 pos_inicial
    (by rw [hS])
  have hj2 : j < (labirinto.headD []).length := by
    have hmem : labirinto.getD i [] ∈ labirinto := by
      rw [List.getD_eq_getElem labirinto [] hi]
      exact List.getElem_mem hi
    rw [← hret.2 (labirinto.getD i []) hmem]
    exact hj
  have hpi : pos_inicial ∈ celulasGrade labirinto := by
    unfold celulasGrade
    rw [Finset.mem_image]
    refine ⟨(i, j), ?_, hp.symm⟩
    rw [Finset.mem_product, Finset.mem_range, Finset.mem_range]
    exact ⟨hi, hj2⟩
  obtain ⟨inv0, hm0⟩ := invEstr_inicial labirinto pos_inicial pos_final
    (celulasGrade labirinto) hpi
    (fun p q hq => vizinhos_na_grade p q labirinto hq)
  apply laco_nao_esgota (celulasGrade labirinto) pos_final _ _ inv0
  rw [hm0, celulasGrade_card]

/-- Witness for the C10 theorem on the example maze (4 × 5 = 20 cells of
fuel suffice). -/
theorem c10_terminacao_witness :
    Retangular criar_labirinto_exemplo ∧
    encontrar_posicoes criar_labirinto_exemplo = (some (0, 0), some (3, 3)) ∧
    (laco (3, 3) (criar_labirinto_exemplo.length *
        (criar_labirinto_exemplo.headD []).length)
      (estado_inicial criar_labirinto_exemplo (0, 0) (3, 3))).1
      ≠ ResA.semCombustivel := by
  refine ⟨?_, ?_, ?_⟩
  · constructor
    · decide
    · decide
  · decide
  · exact c10_terminacao criar_labirinto_exemplo (0, 0) (3, 3)
      ⟨by decide, by decide⟩ (by decide)

/-!
## The heap root is `f`-minimal
-/

/-- In a heap-ordered list the root has the least `f_cost`. -/
theorem raiz_minima (l : List Node) (hord : FilaOrdenada l) :
    ∀ j, j < l.length →
      (l.getD 0 default).f_cost ≤ (l.getD j default).f_cost := by
  intro j
  induction j using Nat.strong_induction_on with
  | _ j ih =>
    intro hj
    cases j with
    | zero => exact le_refl _
    | succ m =>
      have hchild : m + 1 = 2 * (m / 2) + 1 ∨ m + 1 = 2 * (m / 2) + 2 := by
        omega
      have h1 := hord (m / 2) (m + 1) hchild hj
      have h2 := ih (m / 2) (by omega) (lt_trans (by omega) hj)
      exact le_trans h2 h1

/-- C7, amended: whenever the frontier satisfies the binary-heap ordering
on `f_cost` (`Node.__lt__` compares nothing else), a pop returns an entry
whose `f_cost` is minimal over the whole frontier; neither the heuristic
value nor any insertion sequence number takes part in the order. -/
theorem c7_pop_minimo_em_f (l : List Node) (hord : FilaOrdenada l)
    (hne : l ≠ []) : ∀ x ∈ l, (heappop l).1.f_cost ≤ x.f_cost := by
  intro x hx
  rw [heappop_fst l hne]
  obtain ⟨j, hj, hxj⟩ := List.mem_iff_getElem.mp hx
  have hmin := raiz_minima l hord j hj
  rwa [List.getD_eq_getElem l default hj, hxj] at hmin

/-- Witness for the amended C7 theorem on a concrete two-entry heap. -/
theorem c7_pop_minimo_em_f_witness :
    FilaOrdenada [Node.raiz (0, 0) 1 0 1, Node.raiz (0, 1) 5 0 5] ∧
    [Node.raiz (0, 0) 1 0 1, Node.raiz (0, 1) 5 0 5] ≠ [] ∧
    ∀ x ∈ [Node.raiz (0, 0) 1 0 1, Node.raiz (0, 1) 5 0 5],
      (heappop [Node.raiz (0, 0) 1 0 1, Node.raiz (0, 1) 5 0 5]).1.f_cost
        ≤ x.f_cost := by
  have hord : FilaOrdenada [Node.raiz (0, 0) 1 0 1, Node.raiz (0, 1) 5 0 5] := by
    intro k j hcj hlt
    simp only [List.length_cons, List.length_nil] at hlt
    have hj1 : j = 1 := by omega
    have hk0 : k = 0 := by omega
    subst hj1
    subst hk0
    decide
  exact ⟨hord, by decide,
    c7_pop_minimo_em_f [Node.raiz (0, 0) 1 0 1, Node.raiz (0, 1) 5 0 5]
      hord (by decide)⟩

/-!
## Monotonicity and well-formedness through relaxation
-/

/-- A relaxation only grows the open set and never touches the closed
set. -/
theorem relaxar_mono (no_atual : Node) (pos_final : Pos) (st : AState)
    (pv : Pos) :
    st.conjunto_aberto ⊆ (relaxar no_atual pos_final st pv).conjunto_aberto ∧
    (relaxar no_atual pos_final st pv).conjunto_fechado
      = st.conjunto_fechado := by
  by_cases hf : pv ∈ st.conjunto_fechado
  · rw [relaxar_fechado no_atual pos_final st pv hf]
    exact ⟨Finset.Subset.refl _, rfl⟩
  · by_cases ha : pv ∈ st.conjunto_aberto
    · obtain ⟨-, hab, hfe⟩ := relaxar_aberto no_atual pos_final st pv hf ha
      rw [hab, hfe]
      exact ⟨Finset.Subset.refl _, rfl⟩
    · obtain ⟨-, hab, hfe⟩ := relaxar_fresco no_atual pos_final st pv hf ha
      rw [hab, hfe]
      exact ⟨Finset.subset_insert _ _, rfl⟩

/-- A fold of relaxations only grows the open set and never touches the
closed set. -/
theorem fold_mono (no_atual : Node) (pos_final : Pos) :
    ∀ (l : List Pos) (st : AState),
      st.conjunto_aberto ⊆
        (l.foldl (relaxar no_atual pos_final) st).conjunto_aberto ∧
      (l.foldl (relaxar no_atual pos_final) st).conjunto_fechado
        = st.conjunto_fechado := by
  intro l
  induction l with
  | nil => intro st; exact ⟨Finset.Subset.refl _, rfl⟩
  | cons q tl ih =>
    intro st
    rw [List.foldl_cons]
    obtain ⟨h1, h2⟩ := relaxar_mono no_atual pos_final st q
    obtain ⟨h3, h4⟩ := ih (relaxar no_atual pos_final st q)
    exact ⟨Finset.Subset.trans h1 h3, h4.trans h2⟩

/-- After its own relaxation, a neighbour is closed or open. -/
theorem relaxar_propria (no_atual : Node) (pos_final : Pos) (st : AState)
    (pv : Pos) :
    pv ∈ (relaxar no_atual pos_final st pv).conjunto_fechado ∨
    pv ∈ (relaxar no_atual pos_final st pv).conjunto_aberto := by
  by_cases hf : pv ∈ st.conjunto_fechado
  · rw [relaxar_fechado no_atual pos_final st pv hf]
    exact Or.inl hf
  · by_cases ha : pv ∈ st.conjunto_aberto
    · obtain ⟨-, hab, -⟩ := relaxar_aberto no_atual pos_final st pv hf ha
      rw [hab]
      exact Or.inr ha
    · obtain ⟨-, hab, -⟩ := relaxar_fresco no_atual pos_final st pv hf ha
      rw [hab]
      exact Or.inr (Finset.mem_insert_self _ _)

/-- Every position of the expansion list ends up closed or open after the
whole fold. -/
theorem fold_propria (no_atual : Node) (pos_final : Pos) :
    ∀ (l : List Pos) (st : AState) (r : Pos), r ∈ l →
      r ∈ (l.foldl (relaxar no_atual pos_final) st).conjunto_fechado ∨
      r ∈ (l.foldl (relaxar no_atual pos_final) st).conjunto_aberto := by
  intro l
  induction l with
  | nil => intro st r hr; cases hr
  | cons q tl ih =>
    intro st r hr
    rw [List.foldl_cons]
    rcases List.mem_cons.mp hr with h | h
    · subst h
      obtain ⟨hmsub, hmfe⟩ := fold_mono no_atual pos_final tl
        (relaxar no_atual pos_final st r)
      rcases relaxar_propria no_atual pos_final st r with h2 | h2
      · exact Or.inl (by rw [hmfe]; exact h2)
      · exact Or.inr (hmsub h2)
    · exact ih (relaxar no_atual pos_final st q) r h

/-- Membership in the queue after a relaxation: a node there either was
already queued or is the candidate node the relaxation built. -/
theorem relaxar_mem_fila (no_atual : Node) (pos_final : Pos) (st : AState)
    (pv : Pos) (n : Node)
    (hn : n ∈ (relaxar no_atual pos_final st pv).fila_aberta) :
    n ∈ st.fila_aberta ∨
      n = Node.novo pv (no_atual.g_cost + 1)
        (heuristica_manhattan pv pos_final) (some no_atual) := by
  by_cases hf : pv ∈ st.conjunto_fechado
  · rw [relaxar_fechado no_atual pos_final st pv hf] at hn
    exact Or.inl hn
  · by_cases ha : pv ∈ st.conjunto_aberto
    · simp only [relaxar, if_neg hf, if_pos ha] at hn
      split at hn
      · rename_i i heq
        split at hn
        · obtain ⟨hlt, -, -⟩ := List.findIdx?_eq_some_iff_getElem.mp heq
          have h1 := (heapify_perm _).mem_iff.mp hn
          have h2 := (perm_getD_set_cons st.fila_aberta i
            (Node.novo pv (no_atual.g_cost + 1)
              (heuristica_manhattan pv pos_final) (some no_atual)) hlt).symm
          have h3 : n ∈ (st.fila_aberta.getD i default ::
              st.fila_aberta.set i (Node.novo pv (no_atual.g_cost + 1)
                (heuristica_manhattan pv pos_final) (some no_atual))) :=
            List.mem_cons_of_mem _ h1
          have h4 := h2.mem_iff.mp h3
          rcases List.mem_cons.mp h4 with h | h
          · exact Or.inr h
          · exact Or.inl h
        · exact Or.inl hn
      · exact Or.inl hn
    · simp only [relaxar, if_neg hf, if_neg ha] at hn
      have h1 := (heappush_perm st.fila_aberta _).mem_iff.mp hn
      rcases List.mem_cons.mp h1 with h | h
      · exact Or.inr h
      · exact Or.inl h

/-- The candidate node built during the expansion of a well-formed node
for one of its neighbours is itself well formed. -/
theorem wf_no_vizinho (lab : List (List String)) (pi pf : Pos)
    (no_atual : Node) (hna : WFNo lab pi pf no_atual) (pv : Pos)
    (hpv : pv ∈ obter_vizinhos no_atual.position lab) :
    WFNo lab pi pf (Node.novo pv (no_atual.g_cost + 1)
      (heuristica_manhattan pv pf) (some no_atual)) := by
  show WFNo lab pi pf (.filho pv (no_atual.g_cost + 1)
    (heuristica_manhattan pv pf)
    ((no_atual.g_cost + 1) + heuristica_manhattan pv pf) no_atual)
  exact ⟨hna, hpv, rfl, rfl, rfl⟩

/-- Folding the expansion over neighbours of a well-formed node keeps all
queued nodes well formed. -/
theorem fold_wf (lab : List (List String)) (pi pf : Pos) (no_atual : Node)
    (hna : WFNo lab pi pf no_atual) :
    ∀ (l : List Pos) (st : AState),
      (∀ q ∈ l, q ∈ obter_vizinhos no_atual.position lab) →
      (∀ n ∈ st.fila_aberta, WFNo lab pi pf n) →
      ∀ n ∈ (l.foldl (relaxar no_atual pf) st).fila_aberta,
        WFNo lab pi pf n := by
  intro l
  induction l with
  | nil => intro st _ hst n hn; exact hst n hn
  | cons q tl ih =>
    intro st hq hst n hn
    rw [List.foldl_cons] at hn
    refine ih (relaxar no_atual pf st q)
      (fun r hr => hq r (List.mem_cons_of_mem _ hr)) ?_ n hn
    intro m hm
    rcases relaxar_mem_fila no_atual pf st q m hm with h | h
    · exact hst m h
    · exact h ▸ wf_no_vizinho lab pi pf no_atual hna q (hq q (by simp))

/-- The initial state satisfies the reachability invariant. -/
theorem invAlc_inicial (lab : List (List String)) (pi pf : Pos)
    (B : Finset Pos) (hpi : pi ∈ B)
    (hviz : ∀ p q : Pos, q ∈ obter_vizinhos p lab → q ∈ B) :
    InvAlcance lab pi pf B (estado_inicial lab pi pf) := by
  refine ⟨(invEstr_inicial lab pi pf B hpi hviz).1, rfl, ?_, ?_, ?_, ?_⟩
  · intro n hn
    have : n = Node.novo pi 0 (heuristica_manhattan pi pf) none := by
      simpa [estado_inicial, heappush_nil] using hn
    subst this
    exact ⟨rfl, rfl, rfl, rfl⟩
  · exact Or.inr (by simp [estado_inicial])
  · intro p hp
    simp [estado_inicial] at hp
  · simp [estado_inicial]

/-- One full non-goal iteration of the main loop (pop, close, expand)
preserves the reachability invariant. -/
theorem invAlc_passo (lab : List (List String)) (pi pf : Pos)
    (B : Finset Pos) (s : AState) (hne : s.fila_aberta ≠ [])
    (inv : InvAlcance lab pi pf B s)
    (hng : (heappop s.fila_aberta).1.position ≠ pf) :
    InvAlcance lab pi pf B
      (expandir (heappop s.fila_aberta).1 pf
        { fila_aberta := (heappop s.fila_aberta).2,
          conjunto_aberto :=
            s.conjunto_aberto.erase (heappop s.fila_aberta).1.position,
          conjunto_fechado :=
            insert (heappop s.fila_aberta).1.position s.conjunto_fechado,
          labirinto := s.labirinto }) := by
  obtain ⟨inv3, -, hu⟩ := invEstr_pop B s hne inv.estr
  have hperm := heappop_perm s.fila_aberta hne
  have hwfu : WFNo lab pi pf (heappop s.fila_aberta).1 :=
    inv.wf _ (hperm.mem_iff.mpr (List.mem_cons_self _ _))
  have hwf2 : ∀ n ∈ (heappop s.fila_aberta).2, WFNo lab pi pf n :=
    fun n hn => inv.wf n (hperm.mem_iff.mpr (List.mem_cons_of_mem _ hn))
  have hlab3 : s.labirinto = lab := inv.lab_eq
  have hfoldfe := (fold_mono (heappop s.fila_aberta).1 pf
    (obter_vizinhos (heappop s.fila_aberta).1.position s.labirinto)
    { fila_aberta := (heappop s.fila_aberta).2,
      conjunto_aberto :=
        s.conjunto_aberto.erase (heappop s.fila_aberta).1.position,
      conjunto_fechado :=
        insert (heappop s.fila_aberta).1.position s.conjunto_fechado,
      labirinto := s.labirinto }).2
  have hfoldab := (fold_mono (heappop s.fila_aberta).1 pf
    (obter_vizinhos (heappop s.fila_aberta).1.position s.labirinto)
    { fila_aberta := (heappop s.fila_aberta).2,
      conjunto_aberto :=
        s.conjunto_aberto.erase (heappop s.fila_aberta).1.position,
      conjunto_fechado :=
        insert (heappop s.fila_aberta).1.position s.conjunto_fechado,
      labirinto := s.labirinto }).1
  refine ⟨(invEstr_expandir B _ pf _ inv3).1, ?_, ?_, ?_, ?_, ?_⟩
  · rw [expandir_labirinto]
    exact inv.lab_eq
  · unfold expandir
    refine fold_wf lab pi pf _ hwfu _ _ ?_ ?_
    · intro q hq
      rwa [hlab3] at hq
    · exact hwf2
  · unfold expandir
    rw [hfoldfe]
    rcases inv.inicio with h | h
    · exact Or.inl (Finset.mem_insert_of_mem h)
    · by_cases hpe : pi = (heappop s.fila_aberta).1.position
      · exact Or.inl (hpe ▸ Finset.mem_insert_self _ _)
      · exact Or.inr (hfoldab (Finset.mem_erase.mpr ⟨hpe, h⟩))
  · intro p hp r hr
    unfold expandir at hp ⊢
    rw [hfoldfe] at hp
    rcases Finset.mem_insert.mp hp with hpu | hpold
    · subst hpu
      have hrl : r ∈ obter_vizinhos (heappop s.fila_aberta).1.position
          s.labirinto := by
        rwa [hlab3]
      exact fold_propria _ pf _ _ r hrl
    · rcases inv.fechadoViz p hpold r hr with h | h
      · rw [hfoldfe]
        exact Or.inl (Finset.mem_insert_of_mem h)
      · by_cases hre : r = (heappop s.fila_aberta).1.position
        · rw [hfoldfe]
          exact Or.inl (hre ▸ Finset.mem_insert_self _ _)
        · exact Or.inr (hfoldab (Finset.mem_erase.mpr ⟨hre, h⟩))
  · unfold expandir
    rw [hfoldfe]
    intro hpf
    rcases Finset.mem_insert.mp hpf with h | h
    · exact hng h.symm
    · exact inv.metaAberta h

/-- When the queue is empty, the invariant forces every legal path from
the start to stay inside the closed set, which never contains the goal:
no legal path from start to goal exists. -/
theorem sem_caminho_estado_final (lab : List (List String)) (pi pf : Pos)
    (B : Finset Pos) (s : AState) (inv : InvAlcance lab pi pf B s)
    (hnil : s.fila_aberta = []) :
    ∀ q, ¬ CaminhoLegal lab pi pf q := by
  have hab : ∀ p : Pos, p ∉ s.conjunto_aberto := by
    intro p hp
    have h := (inv.estr.abeq p).mp hp
    rw [hnil] at h
    simp at h
  have hcl : ∀ (q : List Pos) (a : Pos), a ∈ s.conjunto_fechado →
      List.Chain' (fun u v => v ∈ obter_vizinhos u lab) (a :: q) →
      ∀ x ∈ a :: q, x ∈ s.conjunto_fechado := by
    intro q
    induction q with
    | nil =>
      intro a ha _ x hx
      simp only [List.mem_singleton] at hx
      exact hx ▸ ha
    | cons b q2 ih =>
      intro a ha hch x hx
      obtain ⟨hab2, hch2⟩ := List.chain'_cons.mp hch
      have hb : b ∈ s.conjunto_fechado := by
        rcases inv.fechadoViz a ha b hab2 with h | h
        · exact h
        · exact absurd h (hab b)
      rcases List.mem_cons.mp hx with h | h
      · exact h ▸ ha
      · exact ih b hb hch2 x h
  intro q hq
  obtain ⟨hhead, hlast, hch⟩ := hq
  obtain ⟨t, rfl⟩ : ∃ t, q = pi :: t := by
    cases q with
    | nil => cases hhead
    | cons a t =>
      have : a = pi := by simpa using hhead
      exact ⟨t, by rw [this]⟩
  have hpi : pi ∈ s.conjunto_fechado := by
    rcases inv.inicio with h | h
    · exact h
    · exact absurd h (hab pi)
  have hpf2 : pf ∈ pi :: t := List.mem_of_mem_getLast? hlast
  exact inv.metaAberta (hcl t pi hpi hch pf hpf2)

/-- Outcome of the fuelled loop under the reachability invariant: a
no-path outcome really means no legal path exists, and a found node is a
well-formed node sitting on the goal. -/
theorem laco_resultado (lab : List (List String)) (pi pf : Pos)
    (B : Finset Pos) :
    ∀ (fuel : Nat) (s : AState), InvAlcance lab pi pf B s →
      ((laco pf fuel s).1 = ResA.semCaminho →
        ∀ q, ¬ CaminhoLegal lab pi pf q) ∧
      (∀ n, (laco pf fuel s).1 = ResA.achado n →
        WFNo lab pi pf n ∧ n.position = pf) := by
  intro fuel
  induction fuel with
  | zero =>
    intro s inv
    constructor
    · intro hsem
      by_cases hnil : s.fila_aberta.isEmpty
      · exact sem_caminho_estado_final lab pi pf B s inv
          (List.isEmpty_iff.mp hnil)
      · simp [laco, hnil] at hsem
    · intro n hach
      by_cases hnil : s.fila_aberta.isEmpty <;> simp [laco, hnil] at hach
  | succ m ih =>
    intro s inv
    simp only [laco]
    split
    case isTrue hnil =>
      constructor
      · intro _
        exact sem_caminho_estado_final lab pi pf B s inv
          (List.isEmpty_iff.mp hnil)
      · intro n hach
        cases hach
    case isFalse hnil =>
      have hne : s.fila_aberta ≠ [] := fun hc => hnil (by simp [hc])
      split
      case isTrue hgoal =>
        constructor
        · intro hsem
          cases hsem
        · intro n hach
          simp only [ResA.achado.injEq] at hach
          subst hach
          have hperm := heappop_perm s.fila_aberta hne
          exact ⟨inv.wf _ (hperm.mem_iff.mpr (List.mem_cons_self _ _)), hgoal⟩
      case isFalse hgoal =>
        exact ih _ (invAlc_passo lab pi pf B s hne inv hgoal)

/-- The chain of a node is never empty. -/
theorem cadeia_ne_nil (n : Node) : cadeia n ≠ [] := by
  cases n <;> simp [cadeia]

/-- A reconstructed path is never empty. -/
theorem reconstruir_ne_nil (n : Node) : reconstruir_caminho n ≠ [] := by
  unfold reconstruir_caminho
  simp [cadeia_ne_nil]

/-- Shape of the path reconstructed from a well-formed node: it starts at
the start marker, ends at the node's position, all its steps are legal,
and the node's accumulated `g_cost` is its number of steps. -/
theorem wf_reconstruir (lab : List (List String)) (pi pf : Pos) :
    ∀ n : Node, WFNo lab pi pf n →
      (reconstruir_caminho n).head? = some pi ∧
      (reconstruir_caminho n).getLast? = some n.position ∧
      List.Chain' (fun u v => v ∈ obter_vizinhos u lab)
        (reconstruir_caminho n) ∧
      n.g_cost = ((reconstruir_caminho n).length : Int) - 1 := by
  intro n
  induction n with
  | raiz p g h f =>
    intro hwf
    obtain ⟨hp, hg, -, -⟩ := hwf
    refine ⟨?_, ?_, ?_, ?_⟩
    · simp [reconstruir_caminho, cadeia, hp]
    · simp [reconstruir_caminho, cadeia, Node.position]
    · simp [reconstruir_caminho, cadeia, List.chain'_singleton]
    · simp [reconstruir_caminho, cadeia, Node.g_cost, hg]
  | filho p g h f q ih =>
    intro hwf
    obtain ⟨hq, hviz, hg, -, -⟩ := hwf
    obtain ⟨ih1, ih2, ih3, ih4⟩ := ih hq
    have hrec : reconstruir_caminho (.filho p g h f q)
        = reconstruir_caminho q ++ [p] := by
      simp [reconstruir_caminho, cadeia]
    rw [hrec]
    obtain ⟨t, ht⟩ : ∃ t, reconstruir_caminho q = pi :: t := by
      cases hrq : reconstruir_caminho q with
      | nil => exact absurd hrq (reconstruir_ne_nil q)
      | cons a t =>
        rw [hrq] at ih1
        have : a = pi := by simpa using ih1
        exact ⟨t, by rw [this]⟩
    refine ⟨?_, ?_, ?_, ?_⟩
    · rw [ht]
      simp
    · exact List.getLast?_concat _
    · refine List.Chain'.append ih3 (List.chain'_singleton p) ?_
      intro x hx y hy
      simp only [List.head?_cons, Option.mem_def, Option.some_inj] at hy
      rw [ih2] at hx
      simp only [Option.mem_def, Option.some_inj] at hx
      subst hx
      subst hy
      exact hviz
    · have hlen : (reconstruir_caminho q ++ [p]).length
          = (reconstruir_caminho q).length + 1 := by simp
      rw [hlen]
      show g = _
      rw [hg]
      have : q.g_cost = ((reconstruir_caminho q).length : Int) - 1 := ih4
      push_cast
      omega

/-- The engine's total path cost is the number of steps (each step costs
one). -/
theorem custo_total_comprimento (p : List Pos) (hp : p ≠ []) :
    custo_total p = (p.length : Int) - 1 := by
  unfold custo_total
  have key : ∀ (l : List (Pos × Pos)) (c : Int),
      l.foldl (fun acc par => acc + custo_movimento par.1 par.2) c
        = c + l.length := by
    intro l
    induction l with
    | nil => intro c; simp
    | cons x tl ih =>
      intro c
      rw [List.foldl_cons, ih, List.length_cons]
      unfold custo_movimento
      push_cast
      ring
  rw [key]
  have hlen : (p.zip p.tail).length = p.length - 1 := by
    rw [List.length_zip, List.length_tail]
    omega
  rw [hlen]
  have hpos : 0 < p.length := List.length_pos.mpr hp
  omega

/-- C6: on a maze whose marker scan yields a start and a goal that are
connected by some legal path, the engine returns a path; that path starts
at the start marker, ends at the goal marker, its steps are the engine's
reconstruction of a well-formed parent chain, and the accumulated cost
the engine computed for it equals the sum of the step costs over its
consecutive pairs. -/
theorem c6_caminho_do_inicio_ao_fim (lab : List (List String))
    (pos_inicial pos_final : Pos)
    (hS : encontrar_posicoes lab = (some pos_inicial, some pos_final))
    (hconn : ∃ q, CaminhoLegal lab pos_inicial pos_final q) :
    ∃ (caminho : List Pos) (n : Node),
      algoritmo_a_estrela lab = some caminho ∧
      resultado_busca lab = ResA.achado n ∧
      caminho = reconstruir_caminho n ∧
      caminho.head? = some pos_inicial ∧
      caminho.getLast? = some pos_final ∧
      custo_total caminho = n.g_cost := by
  have hrb : resultado_busca lab
      = (laco pos_final (combustivel lab)
          (estado_inicial lab pos_inicial pos_final)).1 := by
    unfold resultado_busca
    rw [hS]
  have hpi : pos_inicial ∈ insert pos_inicial (celulasGrade lab) :=
    Finset.mem_insert_self _ _
  have hviz : ∀ p q : Pos, q ∈ obter_vizinhos p lab →
      q ∈ insert pos_inicial (celulasGrade lab) :=
    fun p q hq => Finset.mem_insert_of_mem (vizinhos_na_grade p q lab hq)
  have inv0 := invAlc_inicial lab pos_inicial pos_final _ hpi hviz
  obtain ⟨-, hm0⟩ := invEstr_inicial lab pos_inicial pos_final _ hpi hviz
  have hfuel : medida (insert pos_inicial (celulasGrade lab))
      (estado_inicial lab pos_inicial pos_final) ≤ combustivel lab := by
    rw [hm0]
    unfold combustivel
    calc (insert pos_inicial (celulasGrade lab)).card
        ≤ (celulasGrade lab).card + 1 := Finset.card_insert_le _ _
      _ = lab.length * (lab.headD []).length + 1 := by
          rw [celulasGrade_card]
  have hns := laco_nao_esgota _ pos_final (combustivel lab)
    (estado_inicial lab pos_inicial pos_final) inv0.estr hfuel
  obtain ⟨hsem, hach⟩ := laco_resultado lab pos_inicial pos_final _
    (combustivel lab) (estado_inicial lab pos_inicial pos_final) inv0
  cases hres : (laco pos_final (combustivel lab)
      (estado_inicial lab pos_inicial pos_final)).1 with
  | semCombustivel => exact absurd hres hns
  | semCaminho =>
    obtain ⟨q, hq⟩ := hconn
    exact absurd hq (hsem hres q)
  | achado n =>
    obtain ⟨hwf, hpos⟩ := hach n hres
    obtain ⟨h1, h2, h3, h4⟩ := wf_reconstruir lab pos_inicial pos_final n hwf
    refine ⟨reconstruir_caminho n, n, ?_, ?_, rfl, h1, ?_, ?_⟩
    · unfold algoritmo_a_estrela
      rw [hrb, hres]
    · rw [hrb, hres]
    · rw [h2, hpos]
    · rw [custo_total_comprimento _ (reconstruir_ne_nil n), h4]

/-- Witness for the C6 theorem on the 1 × 2 maze `S E`. -/
theorem c6_caminho_do_inicio_ao_fim_witness :
    encontrar_posicoes [["S", "E"]] = (some (0, 0), some (0, 1)) ∧
    (∃ q, CaminhoLegal [["S", "E"]] (0, 0) (0, 1) q) ∧
    (∃ (caminho : List Pos) (n : Node),
      algoritmo_a_estrela [["S", "E"]] = some caminho ∧
      resultado_busca [["S", "E"]] = ResA.achado n ∧
      caminho = reconstruir_caminho n ∧
      caminho.head? = some (0, 0) ∧
      caminho.getLast? = some (0, 1) ∧
      custo_total caminho = n.g_cost) := by
  have hleg : CaminhoLegal [["S", "E"]] (0, 0) (0, 1) [(0, 0), (0, 1)] := by
    unfold CaminhoLegal
    exact ⟨by decide, by decide,
      List.chain'_cons.mpr ⟨by decide, List.chain'_singleton _⟩⟩
  refine ⟨by decide, ⟨[(0, 0), (0, 1)], hleg⟩, ?_⟩
  exact c6_caminho_do_inicio_ao_fim [["S", "E"]] (0, 0) (0, 1) (by decide)
    ⟨[(0, 0), (0, 1)], hleg⟩

/-- C1, amended: the accumulated cost at the goal is exactly the number
of steps of the returned path — every relaxation adds the constant 1,
never the destination cell's digit — and the sum of the engine's step
costs over the path says the same. -/
theorem c1_custo_e_numero_de_passos (lab : List (List String))
    (caminho : List Pos) (h : algoritmo_a_estrela lab = some caminho) :
    custo_g_final lab = some ((caminho.length : Int) - 1) ∧
    custo_total caminho = (caminho.length : Int) - 1 := by
  unfold algoritmo_a_estrela at h
  cases hres : resultado_busca lab with
  | semCaminho => rw [hres] at h; cases h
  | semCombustivel => rw [hres] at h; cases h
  | achado n =>
    rw [hres] at h
    have hcam : caminho = reconstruir_caminho n := by
      simpa using h.symm
    have hres1 := hres
    unfold resultado_busca at hres1
    rcases hE : encontrar_posicoes lab with ⟨a, b⟩
    rw [hE] at hres1
    cases a with
    | none => simp at hres1
    | some pos_inicial =>
      cases b with
      | none => simp at hres1
      | some pos_final =>
        have hpi : pos_inicial ∈ insert pos_inicial (celulasGrade lab) :=
          Finset.mem_insert_self _ _
        have hviz : ∀ p q : Pos, q ∈ obter_vizinhos p lab →
            q ∈ insert pos_inicial (celulasGrade lab) :=
          fun p q hq =>
            Finset.mem_insert_of_mem (vizinhos_na_grade p q lab hq)
        have inv0 := invAlc_inicial lab pos_inicial pos_final _ hpi hviz
        obtain ⟨-, hach⟩ := laco_resultado lab pos_inicial pos_final _
          (combustivel lab) (estado_inicial lab pos_inicial pos_final) inv0
        obtain ⟨hwf, -⟩ := hach n hres1
        have h4 := (wf_reconstruir lab pos_inicial pos_final n hwf).2.2.2
        constructor
        · unfold custo_g_final
          rw [hres]
          show some n.g_cost = _
          rw [hcam, h4]
        · rw [hcam, custo_total_comprimento _ (reconstruir_ne_nil n)]

/-- Witness for the amended C1 theorem on the 1 × 2 maze `S E`. -/
theorem c1_custo_e_numero_de_passos_witness :
    algoritmo_a_estrela [["S", "E"]] = some [(0, 0), (0, 1)] ∧
    custo_g_final [["S", "E"]]
      = some ((([((0 : Int), (0 : Int)), (0, 1)].length : Int)) - 1) ∧
    custo_total [((0 : Int), (0 : Int)), (0, 1)]
      = (([((0 : Int), (0 : Int)), (0, 1)].length : Int)) - 1 := by
  refine ⟨by decide, ?_, ?_⟩
  · exact (c1_custo_e_numero_de_passos [["S", "E"]] _ (by decide)).1
  · exact (c1_custo_e_numero_de_passos [["S", "E"]] _ (by decide)).2

/-!
## Index arithmetic of the binary heap
-/

/-- A descendant index is at least the root index. -/
theorem Desc.menor {i j : Nat} (h : Desc i j) : i ≤ j := by
  induction h with
  | refl i => exact le_refl i
  | esq i h ih => omega
  | dir i h ih => omega

/-- Descendants are closed under taking children. -/
theorem Desc.filho {s k j : Nat} (h : Desc s k)
    (hj : j = 2 * k + 1 ∨ j = 2 * k + 2) : Desc s j := by
  induction h with
  | refl i =>
    rcases hj with h | h
    · exact Desc.esq i (h ▸ Desc.refl _)
    · exact Desc.dir i (h ▸ Desc.refl _)
  | esq i h ih => exact Desc.esq i (ih hj)
  | dir i h ih => exact Desc.dir i (ih hj)

/-- Every index is a descendant of the root `0`. -/
theorem desc_zero (k : Nat) : Desc 0 k := by
  induction k using Nat.strong_induction_on with
  | _ k ih =>
    cases k with
    | zero => exact Desc.refl 0
    | succ m =>
      have hpar := ih ((m + 1 - 1) / 2) (by omega)
      exact hpar.filho (by omega)

/-- A proper descendant's parent is still a descendant. -/
theorem Desc.pai {s p : Nat} (h : Desc s p) : p ≠ s → Desc s ((p - 1) / 2) := by
  induction h with
  | refl i => intro hne; exact absurd rfl hne
  | esq i h ih =>
    rename_i k
    intro _
    by_cases hk : k = 2 * i + 1
    · subst hk
      have harit : (2 * i + 1 - 1) / 2 = i := by omega
      rw [harit]
      exact Desc.refl i
    · exact Desc.esq i (ih hk)
  | dir i h ih =>
    rename_i k
    intro _
    by_cases hk : k = 2 * i + 2
    · subst hk
      have harit : (2 * i + 2 - 1) / 2 = i := by omega
      rw [harit]
      exact Desc.refl i
    · exact Desc.dir i (ih hk)

/-- Reading the overwritten slot. -/
theorem getD_set_mesmo (l : List Node) (p : Nat) (x : Node)
    (hp : p < l.length) : (l.set p x).getD p default = x := by
  simp [List.getD_eq_getElem?_getD, List.getElem?_set_self hp]

/-- Reading any other slot after an overwrite. -/
theorem getD_set_outro (l : List Node) (p j : Nat) (x : Node)
    (hne : p ≠ j) : (l.set p x).getD j default = l.getD j default := by
  simp [List.getD_eq_getElem?_getD, List.getElem?_set_ne hne]

/-- Writing the saved item terminates a bubble-up: if the hole is the
subtree root, or the parent is already no bigger than the item, the
subtree becomes heap-ordered and nothing outside it changes. -/
theorem siftdown_escreve (novo : Node) (l : List Node) (s p : Nat)
    (hp : p < l.length) (hdesc : Desc s p)
    (hJ2 : ∀ k j, (j = 2 * k + 1 ∨ j = 2 * k + 2) → Desc s k →
      j < l.length → j ≠ p →
      (l.getD k default).f_cost ≤ (l.getD j default).f_cost)
    (hJ3 : ∀ c, (c = 2 * p + 1 ∨ c = 2 * p + 2) → c < l.length →
      (l.getD p default).f_cost ≤ (l.getD c default).f_cost ∧
        novo.f_cost ≤ (l.getD c default).f_cost)
    (hcase : p = s ∨ (s < p ∧
      (l.getD ((p - 1) / 2) default).f_cost ≤ novo.f_cost)) :
    (∀ k, Desc s k → HeapNo (l.set p novo) k) ∧
    (∀ j : Nat, ¬ Desc s j →
      (l.set p novo).getD j default = l.getD j default) := by
  constructor
  · intro k hk j hcj hjl
    rw [List.length_set] at hjl
    by_cases hkp : k = p
    · subst hkp
      have hjp : j ≠ k := by omega
      rw [getD_set_mesmo l k novo hp, getD_set_outro l k j novo (Ne.symm hjp)]
      exact (hJ3 j hcj hjl).2
    · by_cases hjp : j = p
      · subst hjp
        have hkpar : k = (j - 1) / 2 := by omega
        rcases hcase with hps | ⟨hsp, hle⟩
        · exfalso
          have hks := hk.menor
          omega
        · rw [getD_set_outro l j k novo (Ne.symm hkp),
            getD_set_mesmo l j novo hp, hkpar]
          exact hle
      · rw [getD_set_outro l p k novo (Ne.symm hkp),
          getD_set_outro l p j novo (Ne.symm hjp)]
        exact hJ2 k j hcj hk hjl hjp
  · intro j hj
    have hjp : p ≠ j := fun hc => hj (hc ▸ hdesc)
    exact getD_set_outro l p j novo hjp

/-- Correctness of the CPython bubble-up `_siftdown`: if heap order holds
at every edge of the subtree of `s` except those into the hole `p`, the
hole's children dominate both the old hole value and the item, and any
parent-of-hole dominates the hole's value whenever the hole has children,
then after the bubble-up the whole subtree of `s` is heap-ordered and
nothing outside the subtree changed. -/
theorem siftdown_ordena (novo : Node) :
    ∀ (fuel : Nat) (l : List Node) (s p : Nat),
      p ≤ fuel → p < l.length → Desc s p →
      (∀ k j, (j = 2 * k + 1 ∨ j = 2 * k + 2) → Desc s k →
        j < l.length → j ≠ p →
        (l.getD k default).f_cost ≤ (l.getD j default).f_cost) →
      (∀ c, (c = 2 * p + 1 ∨ c = 2 * p + 2) → c < l.length →
        (l.getD p default).f_cost ≤ (l.getD c default).f_cost ∧
          novo.f_cost ≤ (l.getD c default).f_cost) →
      (∀ k c, (p = 2 * k + 1 ∨ p = 2 * k + 2) → Desc s k →
        (c = 2 * p + 1 ∨ c = 2 * p + 2) → c < l.length →
        (l.getD k default).f_cost ≤ (l.getD p default).f_cost) →
      (∀ k, Desc s k → HeapNo (siftdownGo novo fuel l s p) k) ∧
      (∀ j : Nat, ¬ Desc s j →
        (siftdownGo novo fuel l s p).getD j default = l.getD j default) := by
  intro fuel
  induction fuel with
  | zero =>
    intro l s p hfuel hp hdesc hJ2 hJ3 _
    have hps : p = s := by
      have := hdesc.menor
      omega
    simp only [siftdownGo]
    exact siftdown_escreve novo l s p hp hdesc hJ2 hJ3 (Or.inl hps)
  | succ n ih =>
    intro l s p hfuel hp hdesc hJ2 hJ3 hJ4
    simp only [siftdownGo]
    split
    case isFalse hsp =>
      have hps : p = s := by
        have := hdesc.menor
        omega
      exact siftdown_escreve novo l s p hp hdesc hJ2 hJ3 (Or.inl hps)
    case isTrue hsp =>
      split
      case isFalse hlt =>
        exact siftdown_escreve novo l s p hp hdesc hJ2 hJ3
          (Or.inr ⟨hsp, le_of_not_lt hlt⟩)
      case isTrue hlt =>
        have hpne : p ≠ s := by omega
        have hppp : (p - 1) / 2 < p := by omega
        have hpple : (p - 1) / 2 < l.length := lt_trans hppp hp
        have hdesc2 : Desc s ((p - 1) / 2) := hdesc.pai hpne
        have hchildpp : p = 2 * ((p - 1) / 2) + 1 ∨
            p = 2 * ((p - 1) / 2) + 2 := by omega
        have hval_p : (l.set p (l.getD ((p - 1) / 2) default)).getD p default
            = l.getD ((p - 1) / 2) default := getD_set_mesmo _ _ _ hp
        have hval_ne : ∀ x, x ≠ p →
            (l.set p (l.getD ((p - 1) / 2) default)).getD x default
              = l.getD x default :=
          fun x hx => getD_set_outro _ _ _ _ (Ne.symm hx)
        have hJ2' : ∀ k j, (j = 2 * k + 1 ∨ j = 2 * k + 2) → Desc s k →
            j < (l.set p (l.getD ((p - 1) / 2) default)).length →
            j ≠ (p - 1) / 2 →
            ((l.set p (l.getD ((p - 1) / 2) default)).getD k default).f_cost
              ≤ ((l.set p (l.getD ((p - 1) / 2) default)).getD
                  j default).f_cost := by
          intro k j hcj hk hjl hjne
          rw [List.length_set] at hjl
          by_cases hjp : j = p
          · subst hjp
            have hkpp : k = (j - 1) / 2 := by omega
            rw [hval_p, hval_ne k (by omega), hkpp]
          · by_cases hkp : k = p
            · subst hkp
              rw [hval_p, hval_ne j hjp]
              exact le_trans (hJ4 ((k - 1) / 2) j hchildpp hdesc2 hcj hjl)
                ((hJ3 j hcj hjl).1)
            · rw [hval_ne k hkp, hval_ne j hjp]
              exact hJ2 k j hcj hk hjl hjp
        have hJ3' : ∀ c, (c = 2 * ((p - 1) / 2) + 1 ∨
              c = 2 * ((p - 1) / 2) + 2) →
            c < (l.set p (l.getD ((p - 1) / 2) default)).length →
            ((l.set p (l.getD ((p - 1) / 2) default)).getD
                ((p - 1) / 2) default).f_cost
              ≤ ((l.set p (l.getD ((p - 1) / 2) default)).getD
                  c default).f_cost ∧
            novo.f_cost ≤ ((l.set p (l.getD ((p - 1) / 2) default)).getD
                  c default).f_cost := by
          intro c hc hcl
          rw [List.length_set] at hcl
          rw [hval_ne ((p - 1) / 2) (by omega)]
          by_cases hcp : c = p
          · subst hcp
            rw [hval_p]
            exact ⟨le_refl _, le_of_lt hlt⟩
          · rw [hval_ne c hcp]
            have hbase := hJ2 ((p - 1) / 2) c hc hdesc2 hcl hcp
            exact ⟨hbase, le_trans (le_of_lt hlt) hbase⟩
        have hJ4' : ∀ k c, ((p - 1) / 2 = 2 * k + 1 ∨
              (p - 1) / 2 = 2 * k + 2) → Desc s k →
            (c = 2 * ((p - 1) / 2) + 1 ∨ c = 2 * ((p - 1) / 2) + 2) →
            c < (l.set p (l.getD ((p - 1) / 2) default)).length →
            ((l.set p (l.getD ((p - 1) / 2) default)).getD k default).f_cost
              ≤ ((l.set p (l.getD ((p - 1) / 2) default)).getD
                  ((p - 1) / 2) default).f_cost := by
          intro k c hk hkdesc hc hcl
          rw [hval_ne k (by omega), hval_ne ((p - 1) / 2) (by omega)]
          exact hJ2 k ((p - 1) / 2) hk hkdesc hpple (by omega)
        have ihres := ih (l.set p (l.getD ((p - 1) / 2) default)) s
          ((p - 1) / 2) (by omega) (by rw [List.length_set]; exact hpple)
          hdesc2 hJ2' hJ3' hJ4'
        refine ⟨ihres.1, ?_⟩
        intro j hj
        rw [ihres.2 j hj]
        exact hval_ne j (fun hc => hj (hc ▸ hdesc))

/-- Correctness of the CPython `_siftup`: if every node of the subtree of
`s` except the hole `p` satisfies the heap condition, and the hole does
too whenever it is not the subtree root, then sinking the hole to a leaf
and bubbling the saved item back up heap-orders the whole subtree,
touching nothing outside it. -/
theorem siftup_ordena (endpos : Nat) (novo : Node) :
    ∀ (fuel : Nat) (l : List Node) (s p : Nat),
      endpos = l.length → endpos - p ≤ fuel → p < l.length → Desc s p →
      (∀ k, Desc s k → k ≠ p → HeapNo l k) →
      (p ≠ s → HeapNo l p) →
      (∀ k, Desc s k → HeapNo (siftupGo endpos novo fuel l s p) k) ∧
      (∀ j : Nat, ¬ Desc s j →
        (siftupGo endpos novo fuel l s p).getD j default = l.getD j default) := by
  intro fuel
  induction fuel with
  | zero =>
    intro l s p hend hfuel hp hdesc _ _
    exact absurd hfuel (by omega)
  | succ n ih =>
    intro l s p hend hfuel hp hdesc hM1 hM2
    simp only [siftupGo, siftdownPy]
    split
    case isFalse hleaf =>
      have hnovo : (l.set p novo).getD p default = novo :=
        getD_set_mesmo _ _ _ hp
      have hres := siftdown_ordena ((l.set p novo).getD p default) p
        (l.set p novo) s p (le_refl p)
        (by rw [List.length_set]; exact hp) hdesc
        (fun k j hcj hk hjl hjne => by
          rw [List.length_set] at hjl
          by_cases hkp : k = p
          · exact absurd hjl (by omega)
          · rw [getD_set_outro l p k novo (Ne.symm hkp),
              getD_set_outro l p j novo (Ne.symm hjne)]
            exact hM1 k hk hkp j hcj hjl)
        (fun c hc hcl => by
          rw [List.length_set] at hcl
          exact absurd hcl (by omega))
        (fun k c hk hkdesc hc hcl => by
          rw [List.length_set] at hcl
          exact absurd hcl (by omega))
      refine ⟨hres.1, ?_⟩
      intro j hj
      rw [hres.2 j hj]
      exact getD_set_outro l p j novo (fun hc => hj (hc ▸ hdesc))
    case isTrue hfilhos =>
      set c2 := if 2 * p + 1 + 1 < endpos ∧
          ¬ ((l.getD (2 * p + 1) default).f_cost <
             (l.getD (2 * p + 1 + 1) default).f_cost)
        then 2 * p + 1 + 1 else 2 * p + 1 with hc2def
      have hc2child : c2 = 2 * p + 1 ∨ c2 = 2 * p + 2 := by
        rw [hc2def]; split <;> omega
      have hc2lt : c2 < endpos := by
        rw [hc2def]; split
        case isTrue h => omega
        case isFalse h => exact hfilhos
      have hc2min : ∀ c3, (c3 = 2 * p + 1 ∨ c3 = 2 * p + 2) →
          c3 < endpos →
          (l.getD c2 default).f_cost ≤ (l.getD c3 default).f_cost := by
        intro c3 hc3 hc3l
        rw [hc2def]
        split
        case isTrue h =>
          rcases hc3 with h3 | h3
          · subst h3; exact le_of_not_lt h.2
          · subst h3; exact le_refl _
        case isFalse h =>
          rcases hc3 with h3 | h3
          · subst h3; exact le_refl _
          · subst h3
            have hlt2 : (l.getD (2 * p + 1) default).f_cost <
                (l.getD (2 * p + 1 + 1) default).f_cost := by
              by_contra hcon
              exact h ⟨by omega, hcon⟩
            exact le_of_lt hlt2
      have hpc2 : p < c2 := by omega
      have hc2len : c2 < l.length := by omega
      have hdesc2 : Desc s c2 := hdesc.filho hc2child
      have hval_p : (l.set p (l.getD c2 default)).getD p default
          = l.getD c2 default := getD_set_mesmo _ _ _ hp
      have hval_ne : ∀ x, x ≠ p →
          (l.set p (l.getD c2 default)).getD x default
            = l.getD x default :=
        fun x hx => getD_set_outro _ _ _ _ (Ne.symm hx)
      have hM1' : ∀ k, Desc s k → k ≠ c2 →
          HeapNo (l.set p (l.getD c2 default)) k := by
        intro k hk hknec2 j hcj hjl
        rw [List.length_set] at hjl
        by_cases hkp : k = p
        · rw [hkp, hval_p]
          by_cases hjc2 : j = c2
          · rw [hjc2, hval_ne c2 (by omega)]
          · rw [hval_ne j (by omega)]
            exact hc2min j (hkp ▸ hcj) (by omega)
        · rw [hval_ne k hkp]
          by_cases hjp : j = p
          · rw [hjp, hval_p]
            by_cases hps : p = s
            · exfalso
              have := hk.menor
              omega
            · exact le_trans (hM1 k hk hkp p (hjp ▸ hcj) hp)
                (hM2 hps c2 hc2child hc2len)
          · rw [hval_ne j hjp]
            exact hM1 k hk hkp j hcj hjl
      have hM2' : c2 ≠ s →
          HeapNo (l.set p (l.getD c2 default)) c2 := by
        intro _ j hcj hjl
        rw [List.length_set] at hjl
        rw [hval_ne c2 (by omega), hval_ne j (by omega)]
        exact hM1 c2 hdesc2 (by omega) j hcj hjl
      have ihres := ih (l.set p (l.getD c2 default)) s c2
        (by rw [List.length_set]; exact hend) (by omega)
        (by rw [List.length_set]; exact hc2len) hdesc2 hM1' hM2'
      refine ⟨ihres.1, ?_⟩
      intro j hj
      rw [ihres.2 j hj]
      exact hval_ne j (fun hc => hj (hc ▸ hdesc))

/-- `heapq.heappush` on a heap-ordered list yields a heap-ordered list. -/
theorem heappush_ordena (l : List Node) (item : Node)
    (hord : FilaOrdenada l) : FilaOrdenada (heappush l item) := by
  intro k
  have hlen : (l ++ [item]).length = l.length + 1 := by simp
  have hres := siftdown_ordena ((l ++ [item]).getD l.length default)
    l.length (l ++ [item]) 0 l.length (le_refl _)
    (by omega) (desc_zero _)
    (fun k j hcj hk hjl hjne => by
      rw [hlen] at hjl
      have hjlt : j < l.length := by omega
      have hklt : k < l.length := by omega
      rw [List.getD_append _ _ _ _ hklt, List.getD_append _ _ _ _ hjlt]
      exact hord k j hcj hjlt)
    (fun c hc hcl => by
      rw [hlen] at hcl
      exact absurd hcl (by omega))
    (fun k c hk hkdesc hc hcl => by
      rw [hlen] at hcl
      exact absurd hcl (by omega))
  exact hres.1 k (desc_zero k)

/-- `heapq._siftup` at an index whose proper subtree is heap-ordered
heap-orders the whole subtree and leaves everything else in place. -/
theorem siftupPy_ordena (h : List Node) (i : Nat) (hi : i < h.length)
    (hsub : ∀ k, Desc i k → k ≠ i → HeapNo h k) :
    (∀ k, Desc i k → HeapNo (siftupPy h i) k) ∧
    (∀ j, ¬ Desc i j → (siftupPy h i).getD j default = h.getD j default) :=
  siftup_ordena h.length (h.getD i default) h.length h i i rfl
    (by omega) hi (Desc.refl i) hsub (fun hc => absurd rfl hc)

/-- The descending fold of `heapify`: if every subtree rooted at an index
`≥ m` is already heap-ordered, sifting down indices `m-1, …, 0` orders
the whole list. -/
theorem heapify_go_ordena :
    ∀ (m : Nat) (h : List Node), m ≤ h.length →
      (∀ j, m ≤ j → HeapNo h j) →
      FilaOrdenada
        ((List.range m).reverse.foldl (fun a i => siftupPy a i) h) := by
  intro m
  induction m with
  | zero =>
    intro h _ hP
    simpa using fun j => hP j (Nat.zero_le j)
  | succ m ih =>
    intro h hm hP
    rw [List.range_succ, List.reverse_append, List.reverse_singleton]
    show FilaOrdenada
      ((List.range m).reverse.foldl (fun a i => siftupPy a i) (siftupPy h m))
    have hmlt : m < h.length := by omega
    have hup := siftupPy_ordena h m hmlt
      (fun k hk hkne => hP k (by have := hk.menor; omega))
    refine ih (siftupPy h m) (by rw [siftupPy_length]; omega) ?_
    intro j hj
    by_cases hdj : Desc m j
    · exact hup.1 j hdj
    · intro j2 hcj2 hj2l
      rw [siftupPy_length] at hj2l
      have hdj2 : ¬ Desc m j2 := by
        intro hd2
        have hne2 : j2 ≠ m := by omega
        have hpai := hd2.pai hne2
        have hjq : (j2 - 1) / 2 = j := by omega
        exact hdj (hjq ▸ hpai)
      rw [hup.2 j hdj, hup.2 j2 hdj2]
      have hjm : m + 1 ≤ j := by
        by_contra hcon
        have hjem : j = m := by omega
        exact hdj (by rw [hjem]; exact Desc.refl m)
      exact hP j hjm j2 hcj2 hj2l

/-- `heapq.heapify` heap-orders any list. -/
theorem heapify_ordena (l : List Node) : FilaOrdenada (heapify l) := by
  show FilaOrdenada
    ((List.range (l.length / 2)).reverse.foldl (fun a i => siftupPy a i) l)
  refine heapify_go_ordena (l.length / 2) l (by omega) ?_
  intro j hj j2 hcj2 hj2l
  exact absurd hj2l (by omega)

/-- Reading `dropLast` agrees with the original list below its length. -/
theorem getD_dropLast (l : List Node) (i : Nat)
    (hi : i < l.dropLast.length) :
    l.dropLast.getD i default = l.getD i default := by
  have h2 : i < l.length := by
    rw [List.length_dropLast] at hi
    omega
  rw [List.getD_eq_getElem?_getD, List.getD_eq_getElem?_getD,
    List.getElem?_eq_getElem hi, List.getElem?_eq_getElem h2]
  simp [List.getElem_dropLast]

/-- `heapq.heappop` of a heap-ordered list leaves a heap-ordered list. -/
theorem heappop_ordena (l : List Node) (hord : FilaOrdenada l) :
    FilaOrdenada (heappop l).2 := by
  simp only [heappop]
  split
  case isTrue hvazio =>
    rw [List.isEmpty_iff] at hvazio
    intro k j hcj hjl
    rw [hvazio] at hjl
    exact absurd hjl (by simp)
  case isFalse hvazio =>
    rw [List.isEmpty_iff] at hvazio
    have hR : 0 < l.dropLast.length := List.length_pos.mpr hvazio
    have hA : 0 < (l.dropLast.set 0 (l.getLastD default)).length := by
      rw [List.length_set]; exact hR
    have hsub : ∀ k, Desc 0 k → k ≠ 0 →
        HeapNo (l.dropLast.set 0 (l.getLastD default)) k := by
      intro k hk hkne j hcj hjA
      rw [List.length_set] at hjA
      have hkR : k < l.dropLast.length := by omega
      rw [getD_set_outro _ _ _ _ (fun hc => hkne hc.symm),
        getD_set_outro _ _ _ _ (by omega),
        getD_dropLast l k hkR, getD_dropLast l j hjA]
      have hjl : j < l.length := by
        rw [List.length_dropLast] at hjA
        omega
      exact hord k j hcj hjl
    have hres := siftupPy_ordena _ 0 hA hsub
    intro k
    exact hres.1 k (desc_zero k)

/-- The Manhattan heuristic satisfies the triangle inequality. -/
theorem manh_triangulo (a b c : Pos) :
    heuristica_manhattan a c ≤
      heuristica_manhattan a b + heuristica_manhattan b c := by
  unfold heuristica_manhattan
  have h1 := abs_sub_le a.1 b.1 c.1
  have h2 := abs_sub_le a.2 b.2 c.2
  linarith

/-- One step to a valid neighbour changes the Manhattan heuristic to any
target by at most one. -/
theorem manh_vizinho {a b : Pos} {lab : List (List String)}
    (h : b ∈ obter_vizinhos a lab) (z : Pos) :
    heuristica_manhattan a z ≤ heuristica_manhattan b z + 1 := by
  obtain ⟨⟨m, hm, hmb⟩, -⟩ := mem_obter_vizinhos.mp h
  have htri := manh_triangulo a b z
  have hab : heuristica_manhattan a b = |m.1| + |m.2| := by
    rw [← hmb]
    show |a.1 - (a.1 + m.1)| + |a.2 - (a.2 + m.2)| = |m.1| + |m.2|
    have e1 : a.1 - (a.1 + m.1) = -m.1 := by ring
    have e2 : a.2 - (a.2 + m.2) = -m.2 := by ring
    rw [e1, e2, abs_neg, abs_neg]
  have hum : |m.1| + |m.2| = 1 := by
    simp only [movimentos, List.mem_cons, List.mem_singleton,
      List.not_mem_nil, or_false] at hm
    rcases hm with rfl | rfl | rfl | rfl <;> decide
  linarith

/-- Along a legal chain of steps, the Manhattan heuristic from the head
to the last element is at most the number of steps. -/
theorem manh_ao_longo (lab : List (List String)) (z : Pos) :
    ∀ q : List Pos, List.Chain' (fun u v => v ∈ obter_vizinhos u lab) q →
      q.getLast? = some z →
      ∀ a, q.head? = some a →
      heuristica_manhattan a z ≤ (q.length : Int) - 1 := by
  intro q
  induction q with
  | nil => intro _ _ a ha; cases ha
  | cons b t ih =>
    intro hch hlast a ha
    have hab : b = a := by simpa using ha
    subst hab
    cases t with
    | nil =>
      have hz : b = z := by simpa using hlast
      subst hz
      simp [heuristica_manhattan]
    | cons c t2 =>
      obtain ⟨hstep, hch2⟩ := List.chain'_cons.mp hch
      have hlast2 : (c :: t2).getLast? = some z := by
        rw [← hlast, List.getLast?_cons_cons]
      have hrec := ih hch2 hlast2 c rfl
      have hviz := manh_vizinho hstep z
      have hlen : ((b :: c :: t2).length : Int)
          = ((c :: t2).length : Int) + 1 := by
        push_cast [List.length_cons]
        ring
      linarith

/-- Appending one legal step extends a legal path. -/
theorem caminho_passo (lab : List (List String)) (a b c : Pos)
    (q : List Pos) (hq : CaminhoLegal lab a b q)
    (hc : c ∈ obter_vizinhos b lab) :
    CaminhoLegal lab a c (q ++ [c]) := by
  obtain ⟨h1, h2, h3⟩ := hq
  obtain ⟨t, rfl⟩ : ∃ t, q = a :: t := by
    cases q with
    | nil => cases h1
    | cons x t =>
      have : x = a := by simpa using h1
      exact ⟨t, by rw [this]⟩
  refine ⟨by simp, List.getLast?_concat _, ?_⟩
  refine List.Chain'.append h3 (List.chain'_singleton c) ?_
  intro x hx y hy
  simp only [List.head?_cons, Option.mem_def, Option.some_inj] at hy
  rw [h2] at hx
  simp only [Option.mem_def, Option.some_inj] at hx
  subst hx
  subst hy
  exact hc

/-- A legal path witnesses reachability in one fewer steps than its
number of positions. -/
theorem alcanca_de_caminho (lab : List (List String)) (a b : Pos)
    (q : List Pos) (hq : CaminhoLegal lab a b q) :
    Alcanca lab a b (q.length - 1) := by
  refine ⟨q, hq, ?_⟩
  have hne : q ≠ [] := by
    intro hc
    rw [hc] at hq
    cases hq.1
  have := List.length_pos.mpr hne
  omega

/-- `distMin` is a lower bound on the step count of every legal path. -/
theorem distMin_le_caminho (lab : List (List String)) (a b : Pos)
    (q : List Pos) (hq : CaminhoLegal lab a b q) :
    distMin lab a b ≤ q.length - 1 :=
  Nat.sInf_le (alcanca_de_caminho lab a b q hq)

/-- When any legal path exists, some legal path attains `distMin`. -/
theorem distMin_alcanca (lab : List (List String)) (a b : Pos)
    (h : ∃ q, CaminhoLegal lab a b q) :
    Alcanca lab a b (distMin lab a b) := by
  obtain ⟨q, hq⟩ := h
  have hmem : q.length - 1 ∈ {n | Alcanca lab a b n} := by
    simp only [Set.mem_setOf_eq]
    exact alcanca_de_caminho lab a b q hq
  exact Nat.sInf_mem ⟨q.length - 1, hmem⟩

/-- Every prefix of a legal path is a legal path to the corresponding
intermediate position. -/
theorem caminho_prefixo (lab : List (List String)) (a z : Pos)
    (P : List Pos) (hP : CaminhoLegal lab a z P) (j : Nat)
    (hj : j < P.length) :
    CaminhoLegal lab a (P.getD j (0, 0)) (P.take (j + 1)) := by
  obtain ⟨h1, h2, h3⟩ := hP
  refine ⟨?_, ?_, h3.prefix (List.take_prefix _ _)⟩
  · obtain ⟨t, rfl⟩ : ∃ t, P = a :: t := by
      cases P with
      | nil => cases h1
      | cons x t =>
        have : x = a := by simpa using h1
        exact ⟨t, by rw [this]⟩
    rw [List.take_succ_cons]
    rfl
  · have hlen : (P.take (j + 1)).length = j + 1 := by
      rw [List.length_take]
      omega
    rw [List.getLast?_eq_getElem?, hlen, Nat.add_sub_cancel,
      List.getElem?_take, if_pos (by omega), List.getElem?_eq_getElem hj,
      List.getD_eq_getElem P (0, 0) hj]

/-- Every suffix of a legal path is a legal path from the corresponding
intermediate position. -/
theorem caminho_sufixo (lab : List (List String)) (a z : Pos)
    (P : List Pos) (hP : CaminhoLegal lab a z P) (t : Nat)
    (ht : t < P.length) :
    CaminhoLegal lab (P.getD t (0, 0)) z (P.drop t) := by
  obtain ⟨h1, h2, h3⟩ := hP
  refine ⟨?_, ?_, h3.suffix (List.drop_suffix t P)⟩
  · rw [List.head?_eq_getElem?, List.getElem?_drop, Nat.add_zero,
      List.getElem?_eq_getElem ht, List.getD_eq_getElem P (0, 0) ht]
  · rw [List.getLast?_eq_getElem?, List.length_drop, List.getElem?_drop]
    have harith : t + (P.length - t - 1) = P.length - 1 := by omega
    rw [harith, ← List.getLast?_eq_getElem?]
    exact h2

/-- Field equations of a well-formed node: `h` is the Manhattan heuristic
at its position, `f = g + h`, and `g` is nonnegative. -/
theorem wf_campos (lab : List (List String)) (pi pf : Pos) :
    ∀ n : Node, WFNo lab pi pf n →
      n.h_cost = heuristica_manhattan n.position pf ∧
      n.f_cost = n.g_cost + n.h_cost ∧ 0 ≤ n.g_cost := by
  intro n
  induction n with
  | raiz p g h f =>
    intro hwf
    obtain ⟨-, hg, hh, hf⟩ := hwf
    exact ⟨hh, hf, le_of_eq hg.symm⟩
  | filho p g h f q ih =>
    intro hwf
    obtain ⟨hq, -, hg, hh, hf⟩ := hwf
    have ihq := ih hq
    refine ⟨hh, hf, ?_⟩
    have h2 := ihq.2.2
    show 0 ≤ g
    omega

/-- Climbing a legal path under the full invariant: each position of the
path is closed, or some earlier position of the path sits in the queue
with a `g_cost` at most its index. -/
theorem subida (lab : List (List String)) (pi pf : Pos) (B : Finset Pos)
    (s : AState) (inv : InvBusca lab pi pf B s) (z : Pos) (P : List Pos)
    (hP : CaminhoLegal lab pi z P) :
    ∀ j, j < P.length →
      P.getD j (0, 0) ∈ s.conjunto_fechado ∨
      ∃ m ∈ s.fila_aberta, ∃ t : Nat, t ≤ j ∧
        m.position = P.getD t (0, 0) ∧ m.g_cost ≤ (t : Int) := by
  have hstep : ∀ i, i + 1 < P.length →
      P.getD (i + 1) (0, 0) ∈ obter_vizinhos (P.getD i (0, 0)) lab := by
    intro i hi
    have hch := hP.2.2
    rw [List.chain'_iff_get] at hch
    have hg := hch i (by omega)
    rwa [List.get_eq_getElem, List.get_eq_getElem,
      ← List.getD_eq_getElem P (0, 0) (by omega : i < P.length),
      ← List.getD_eq_getElem P (0, 0) (by omega : i + 1 < P.length)] at hg
  intro j
  induction j with
  | zero =>
    intro hj
    have h0 : P.getD 0 (0, 0) = pi := by
      have h1 := hP.1
      cases P with
      | nil => cases h1
      | cons x t =>
        have hx : x = pi := by simpa using h1
        rw [List.getD_cons_zero]
        exact hx
    rcases inv.inicio with h | ⟨m, hm, hmp, hmg⟩
    · exact Or.inl (h0 ▸ h)
    · exact Or.inr ⟨m, hm, 0, le_refl 0, by rw [hmp, h0],
        by exact_mod_cast hmg⟩
  | succ j ih =>
    intro hj
    rcases ih (by omega) with hcl | ⟨m, hm, t, ht, hmp, hmg⟩
    · have hstepj := hstep j hj
      rcases inv.fechadoViz _ hcl _ hstepj with h | ⟨m, hm, hmp, hmg⟩
      · exact Or.inl h
      · refine Or.inr ⟨m, hm, j + 1, le_refl _, hmp, ?_⟩
        have hpref := caminho_prefixo lab pi z P hP j (by omega)
        have hdle := distMin_le_caminho lab pi (P.getD j (0, 0)) _ hpref
        have hlen : (P.take (j + 1)).length = j + 1 := by
          rw [List.length_take]
          omega
        rw [hlen] at hdle
        have hdj : distMin lab pi (P.getD j (0, 0)) ≤ j := by omega
        have hdjInt : (distMin lab pi (P.getD j (0, 0)) : Int) ≤ (j : Int) :=
          by exact_mod_cast hdj
        push_cast
        linarith
    · exact Or.inr ⟨m, hm, t, by omega, hmp, hmg⟩

/-- The node at the root of the queue of a state satisfying the full
invariant is optimal: its accumulated `g_cost` is at most the
shortest-path distance from the start to its position. -/
theorem pop_otimo (lab : List (List String)) (pi pf : Pos) (B : Finset Pos)
    (s : AState) (inv : InvBusca lab pi pf B s) (hne : s.fila_aberta ≠ []) :
    (heappop s.fila_aberta).1.g_cost
      ≤ (distMin lab pi (heappop s.fila_aberta).1.position : Int) := by
  obtain ⟨u, hu⟩ : ∃ u, (heappop s.fila_aberta).1 = u := ⟨_, rfl⟩
  rw [hu]
  have hperm := heappop_perm s.fila_aberta hne
  have humem : u ∈ s.fila_aberta :=
    hu ▸ hperm.mem_iff.mpr (List.mem_cons_self _ _)
  have hwfu := inv.wf u humem
  obtain ⟨hr1, hr2, hr3, -⟩ := wf_reconstruir lab pi pf u hwfu
  have hreach : ∃ q, CaminhoLegal lab pi u.position q :=
    ⟨reconstruir_caminho u, hr1, hr2, hr3⟩
  obtain ⟨P, hPleg, hPlen⟩ := distMin_alcanca lab pi u.position hreach
  have hjlt : distMin lab pi u.position < P.length := by omega
  rcases subida lab pi pf B s inv u.position P hPleg
      (distMin lab pi u.position) hjlt with hcl | hent
  · have hlastP : P.getD (distMin lab pi u.position) (0, 0) = u.position := by
      have h2 := hPleg.2.1
      rw [List.getLast?_eq_getElem?] at h2
      have harith : P.length - 1 = distMin lab pi u.position := by omega
      rw [harith, List.getElem?_eq_getElem hjlt] at h2
      rw [List.getD_eq_getElem P (0, 0) hjlt]
      exact Option.some_inj.mp h2
    rw [hlastP] at hcl
    have huab : u.position ∈ s.conjunto_aberto :=
      (inv.estr.abeq _).mpr (List.mem_map_of_mem Node.position humem)
    exact absurd hcl (inv.estr.disj _ huab)
  · obtain ⟨m, hm, t, ht, hmp, hmg⟩ := hent
    obtain ⟨jm, hjm, hjmm⟩ := List.mem_iff_getElem.mp hm
    have hmin := raiz_minima s.fila_aberta inv.ord jm hjm
    rw [List.getD_eq_getElem s.fila_aberta default hjm, hjmm] at hmin
    have hu0 : s.fila_aberta.getD 0 default = u := by
      rw [← hu]
      exact (heappop_fst s.fila_aberta hne).symm
    rw [hu0] at hmin
    obtain ⟨huh, huf, -⟩ := wf_campos lab pi pf u hwfu
    obtain ⟨hmh, hmf, -⟩ := wf_campos lab pi pf m (inv.wf m hm)
    have hsuf := caminho_sufixo lab pi u.position P hPleg t (by omega)
    have hmanh := manh_ao_longo lab u.position (P.drop t) hsuf.2.2 hsuf.2.1
      (P.getD t (0, 0)) hsuf.1
    have hdlen : ((P.drop t).length : Int)
        = (distMin lab pi u.position : Int) - (t : Int) + 1 := by
      rw [List.length_drop, hPlen]
      omega
    have htri := manh_triangulo (P.getD t (0, 0)) u.position pf
    rw [huf, huh, hmf, hmh, hmp] at hmin
    rw [hdlen] at hmanh
    linarith

/-- A queue entry at a given position with a bounded `g_cost` survives any
single relaxation: the entry is kept, or replaced by one that is strictly
better (hence still within the bound) at the same position. -/
theorem relaxar_sobrevive (no_atual : Node) (pos_final : Pos) (st : AState)
    (pv r : Pos) (Bnd : Int)
    (h : ∃ m ∈ st.fila_aberta, m.position = r ∧ m.g_cost ≤ Bnd) :
    ∃ m ∈ (relaxar no_atual pos_final st pv).fila_aberta,
      m.position = r ∧ m.g_cost ≤ Bnd := by
  obtain ⟨m, hm, hmr, hmg⟩ := h
  by_cases hf : pv ∈ st.conjunto_fechado
  · rw [relaxar_fechado no_atual pos_final st pv hf]
    exact ⟨m, hm, hmr, hmg⟩
  by_cases ha : pv ∈ st.conjunto_aberto
  · simp only [relaxar, if_neg hf, if_pos ha]
    cases hidx : st.fila_aberta.findIdx?
        (fun nf => decide (nf.position = pv)) with
    | none => exact ⟨m, hm, hmr, hmg⟩
    | some i =>
      simp only [hidx]
      split
      · rename_i hlt
        obtain ⟨hil, hpred, -⟩ := List.findIdx?_eq_some_iff_getElem.mp hidx
        have hipv : (st.fila_aberta.getD i default).position = pv := by
          rw [List.getD_eq_getElem st.fila_aberta default hil]
          simpa using hpred
        have hperm2 := perm_getD_set_cons st.fila_aberta i
          (Node.novo pv (no_atual.g_cost + 1)
            (heuristica_manhattan pv pos_final) (some no_atual)) hil
        have h3 : m ∈ (st.fila_aberta.getD i default ::
            st.fila_aberta.set i (Node.novo pv (no_atual.g_cost + 1)
              (heuristica_manhattan pv pos_final) (some no_atual))) :=
          hperm2.mem_iff.mp (List.mem_cons_of_mem _ hm)
        rcases List.mem_cons.mp h3 with hmeq | hmem2
        · refine ⟨Node.novo pv (no_atual.g_cost + 1)
            (heuristica_manhattan pv pos_final) (some no_atual),
            ?_, ?_, ?_⟩
          · apply (heapify_perm _).mem_iff.mpr
            refine List.mem_iff_getElem.mpr ⟨i,
              by rw [List.length_set]; exact hil, ?_⟩
            exact List.getElem_set_self (by rw [List.length_set]; exact hil)
          · rw [novo_position, ← hipv, ← hmeq]
            exact hmr
          · rw [novo_g_cost]
            rw [novo_g_cost] at hlt
            rw [← hmeq] at hlt
            omega
        · exact ⟨m, (heapify_perm _).mem_iff.mpr hmem2, hmr, hmg⟩
      · exact ⟨m, hm, hmr, hmg⟩
  · simp only [relaxar, if_neg hf, if_neg ha]
    exact ⟨m, (heappush_perm _ _).mem_iff.mpr (List.mem_cons_of_mem _ hm),
      hmr, hmg⟩

/-- A bounded queue entry survives a whole fold of relaxations. -/
theorem fold_sobrevive (no_atual : Node) (pos_final : Pos) (r : Pos)
    (Bnd : Int) :
    ∀ (l : List Pos) (st : AState),
      (∃ m ∈ st.fila_aberta, m.position = r ∧ m.g_cost ≤ Bnd) →
      ∃ m ∈ (l.foldl (relaxar no_atual pos_final) st).fila_aberta,
        m.position = r ∧ m.g_cost ≤ Bnd := by
  intro l
  induction l with
  | nil => intro st h; exact h
  | cons q tl ih =>
    intro st h
    rw [List.foldl_cons]
    exact ih _ (relaxar_sobrevive no_atual pos_final st q r Bnd h)

/-- Relaxing a neighbour that is not closed always leaves some queue
entry at its position whose `g_cost` is at most `no_atual.g_cost + 1`
(the entry pushed, the replacement, or the already-better old entry). -/
theorem relaxar_fornece (no_atual : Node) (pos_final : Pos) (st : AState)
    (pv : Pos)
    (habeq : ∀ p : Pos,
      p ∈ st.conjunto_aberto ↔ p ∈ st.fila_aberta.map Node.position) :
    pv ∈ st.conjunto_fechado ∨
    ∃ m ∈ (relaxar no_atual pos_final st pv).fila_aberta,
      m.position = pv ∧ m.g_cost ≤ no_atual.g_cost + 1 := by
  by_cases hf : pv ∈ st.conjunto_fechado
  · exact Or.inl hf
  right
  by_cases ha : pv ∈ st.conjunto_aberto
  · simp only [relaxar, if_neg hf, if_pos ha]
    cases hidx : st.fila_aberta.findIdx?
        (fun nf => decide (nf.position = pv)) with
    | none =>
      exfalso
      rw [List.findIdx?_eq_none_iff] at hidx
      obtain ⟨n, hn, hnp⟩ := List.mem_map.mp ((habeq pv).mp ha)
      have := hidx n hn
      rw [hnp] at this
      simp at this
    | some i =>
      simp only [hidx]
      obtain ⟨hil, hpred, -⟩ := List.findIdx?_eq_some_iff_getElem.mp hidx
      have hipv : (st.fila_aberta.getD i default).position = pv := by
        rw [List.getD_eq_getElem st.fila_aberta default hil]
        simpa using hpred
      split
      · refine ⟨Node.novo pv (no_atual.g_cost + 1)
          (heuristica_manhattan pv pos_final) (some no_atual), ?_, ?_, ?_⟩
        · apply (heapify_perm _).mem_iff.mpr
          refine List.mem_iff_getElem.mpr ⟨i,
            by rw [List.length_set]; exact hil, ?_⟩
          exact List.getElem_set_self (by rw [List.length_set]; exact hil)
        · rw [novo_position]
        · rw [novo_g_cost]
      · rename_i hnlt
        refine ⟨st.fila_aberta.getD i default, ?_, hipv, ?_⟩
        · apply List.mem_iff_getElem.mpr ⟨i, hil, ?_⟩
          exact (List.getD_eq_getElem st.fila_aberta default hil).symm
        · rw [novo_g_cost] at hnlt
          omega
  · simp only [relaxar, if_neg hf, if_neg ha]
    refine ⟨Node.novo pv (no_atual.g_cost + 1)
      (heuristica_manhattan pv pos_final) (some no_atual), ?_, ?_, ?_⟩
    · exact (heappush_perm _ _).mem_iff.mpr (List.mem_cons_self _ _)
    · rw [novo_position]
    · rw [novo_g_cost]

/-- Every neighbour in the expansion list ends up closed or represented
in the queue with a `g_cost` within one of the expanded node's. -/
theorem fold_fornece (no_atual : Node) (pos_final : Pos) (B : Finset Pos) :
    ∀ (l : List Pos) (st : AState), InvEstrutural B st →
      (∀ q2 ∈ l, q2 ∈ B) →
      ∀ r ∈ l,
        r ∈ (l.foldl (relaxar no_atual pos_final) st).conjunto_fechado ∨
        ∃ m ∈ (l.foldl (relaxar no_atual pos_final) st).fila_aberta,
          m.position = r ∧ m.g_cost ≤ no_atual.g_cost + 1 := by
  intro l
  induction l with
  | nil => intro st _ _ r hr; cases hr
  | cons q tl ih =>
    intro st hinv hqB r hr
    rw [List.foldl_cons]
    rcases List.mem_cons.mp hr with hrq | hrtl
    · subst hrq
      rcases relaxar_fornece no_atual pos_final st r hinv.abeq with h | h
      · left
        have h1 := (fold_mono no_atual pos_final tl
          (relaxar no_atual pos_final st r)).2
        have h2 := (relaxar_mono no_atual pos_final st r).2
        rw [h1, h2]
        exact h
      · exact Or.inr (fold_sobrevive no_atual pos_final r
          (no_atual.g_cost + 1) tl _ h)
    · exact ih (relaxar no_atual pos_final st q)
        (invEstr_relaxar B no_atual pos_final st q
          (hqB q (List.mem_cons_self _ _)) hinv).1
        (fun q2 hq2 => hqB q2 (List.mem_cons_of_mem _ hq2)) r hrtl

/-- A single relaxation keeps the queue heap-ordered: it leaves the queue
alone, re-heapifies it, or pushes onto it. -/
theorem relaxar_ordenada (no_atual : Node) (pos_final : Pos) (st : AState)
    (pv : Pos) (hord : FilaOrdenada st.fila_aberta) :
    FilaOrdenada (relaxar no_atual pos_final st pv).fila_aberta := by
  by_cases hf : pv ∈ st.conjunto_fechado
  · rw [relaxar_fechado no_atual pos_final st pv hf]
    exact hord
  by_cases ha : pv ∈ st.conjunto_aberto
  · simp only [relaxar, if_neg hf, if_pos ha]
    cases hidx : st.fila_aberta.findIdx?
        (fun nf => decide (nf.position = pv)) with
    | none => exact hord
    | some i =>
      simp only [hidx]
      split
      · exact heapify_ordena _
      · exact hord
  · simp only [relaxar, if_neg hf, if_neg ha]
    exact heappush_ordena _ _ hord

/-- A whole fold of relaxations keeps the queue heap-ordered. -/
theorem fold_ordenada (no_atual : Node) (pos_final : Pos) :
    ∀ (l : List Pos) (st : AState), FilaOrdenada st.fila_aberta →
      FilaOrdenada (l.foldl (relaxar no_atual pos_final) st).fila_aberta := by
  intro l
  induction l with
  | nil => intro st h; exact h
  | cons q tl ih =>
    intro st h
    rw [List.foldl_cons]
    exact ih _ (relaxar_ordenada no_atual pos_final st q h)

/-- The initial state satisfies the full invariant. -/
theorem invBusca_inicial (lab : List (List String)) (pi pf : Pos)
    (B : Finset Pos) (hpi : pi ∈ B)
    (hviz : ∀ p q : Pos, q ∈ obter_vizinhos p lab → q ∈ B) :
    InvBusca lab pi pf B (estado_inicial lab pi pf) := by
  refine ⟨(invEstr_inicial lab pi pf B hpi hviz).1, rfl, ?_, ?_, ?_, ?_, ?_⟩
  · intro n hn
    have hn2 : n = Node.novo pi 0 (heuristica_manhattan pi pf) none := by
      simpa [estado_inicial, heappush_nil] using hn
    subst hn2
    exact ⟨rfl, rfl, rfl, rfl⟩
  · intro k j hcj hjl
    simp only [estado_inicial, heappush_nil, List.length_cons,
      List.length_nil] at hjl
    omega
  · right
    refine ⟨Node.novo pi 0 (heuristica_manhattan pi pf) none, ?_, ?_, ?_⟩
    · simp [estado_inicial, heappush_nil]
    · rw [novo_position]
    · rw [novo_g_cost]
  · intro p hp
    simp [estado_inicial] at hp
  · simp [estado_inicial]

/-- One full non-goal iteration of the main loop (pop, close, expand)
preserves the full invariant. -/
theorem invBusca_passo (lab : List (List String)) (pi pf : Pos)
    (B : Finset Pos) (s : AState) (hne : s.fila_aberta ≠ [])
    (inv : InvBusca lab pi pf B s)
    (hng : (heappop s.fila_aberta).1.position ≠ pf) :
    InvBusca lab pi pf B
      (expandir (heappop s.fila_aberta).1 pf
        { fila_aberta := (heappop s.fila_aberta).2,
          conjunto_aberto :=
            s.conjunto_aberto.erase (heappop s.fila_aberta).1.position,
          conjunto_fechado :=
            insert (heappop s.fila_aberta).1.position s.conjunto_fechado,
          labirinto := s.labirinto }) := by
  obtain ⟨inv3, -, -⟩ := invEstr_pop B s hne inv.estr
  have hperm := heappop_perm s.fila_aberta hne
  have hwfu : WFNo lab pi pf (heappop s.fila_aberta).1 :=
    inv.wf _ (hperm.mem_iff.mpr (List.mem_cons_self _ _))
  have hwf2 : ∀ n ∈ (heappop s.fila_aberta).2, WFNo lab pi pf n :=
    fun n hn => inv.wf n (hperm.mem_iff.mpr (List.mem_cons_of_mem _ hn))
  have hlab3 : s.labirinto = lab := inv.lab_eq
  have hfoldfe := (fold_mono (heappop s.fila_aberta).1 pf
    (obter_vizinhos (heappop s.fila_aberta).1.position s.labirinto)
    { fila_aberta := (heappop s.fila_aberta).2,
      conjunto_aberto :=
        s.conjunto_aberto.erase (heappop s.fila_aberta).1.position,
      conjunto_fechado :=
        insert (heappop s.fila_aberta).1.position s.conjunto_fechado,
      labirinto := s.labirinto }).2
  refine ⟨(invEstr_expandir B _ pf _ inv3).1, ?_, ?_, ?_, ?_, ?_, ?_⟩
  · rw [expandir_labirinto]
    exact inv.lab_eq
  · unfold expandir
    refine fold_wf lab pi pf _ hwfu _ _ ?_ hwf2
    intro q hq
    rwa [hlab3] at hq
  · unfold expandir
    exact fold_ordenada _ pf _ _ (heappop_ordena s.fila_aberta inv.ord)
  · unfold expandir
    rw [hfoldfe]
    rcases inv.inicio with h | ⟨m, hm, hmp, hmg⟩
    · exact Or.inl (Finset.mem_insert_of_mem h)
    · rcases List.mem_cons.mp (hperm.mem_iff.mp hm) with hmu | hmrest
      · left
        rw [← hmp, hmu]
        exact Finset.mem_insert_self _ _
      · right
        exact fold_sobrevive _ pf pi 0 _ _ ⟨m, hmrest, hmp, hmg⟩
  · intro p hp r hr
    unfold expandir at hp ⊢
    rw [hfoldfe] at hp
    rcases Finset.mem_insert.mp hp with hpu | hpold
    · subst hpu
      have hrl : r ∈ obter_vizinhos (heappop s.fila_aberta).1.position
          s.labirinto := by rwa [hlab3]
      have hBviz : ∀ q2 ∈ obter_vizinhos
          (heappop s.fila_aberta).1.position s.labirinto, q2 ∈ B :=
        fun q2 hq2 => inv.estr.vizB _ q2 hq2
      rcases fold_fornece (heappop s.fila_aberta).1 pf B _ _ inv3 hBviz r hrl
        with h | ⟨m, hm, hmp, hmg⟩
      · exact Or.inl h
      · right
        refine ⟨m, hm, hmp, ?_⟩
        have hopt := pop_otimo lab pi pf B s inv hne
        omega
    · rcases inv.fechadoViz p hpold r hr with h | ⟨m, hm, hmp, hmg⟩
      · rw [hfoldfe]
        exact Or.inl (Finset.mem_insert_of_mem h)
      · rcases List.mem_cons.mp (hperm.mem_iff.mp hm) with hmu | hmrest
        · rw [hfoldfe]
          left
          rw [← hmp, hmu]
          exact Finset.mem_insert_self _ _
        · right
          exact fold_sobrevive _ pf r _ _ _ ⟨m, hmrest, hmp, hmg⟩
  · unfold expandir
    rw [hfoldfe]
    intro hpf
    rcases Finset.mem_insert.mp hpf with h | h
    · exact hng h.symm
    · exact inv.metaAberta h

/-- Under the full invariant, any goal node returned by the fuelled loop
is well formed, sits on the goal, and its accumulated cost is at most the
shortest-path distance from start to goal. -/
theorem laco_otimo (lab : List (List String)) (pi pf : Pos)
    (B : Finset Pos) :
    ∀ (fuel : Nat) (s : AState), InvBusca lab pi pf B s →
      ∀ n, (laco pf fuel s).1 = ResA.achado n →
        WFNo lab pi pf n ∧ n.position = pf ∧
          n.g_cost ≤ (distMin lab pi pf : Int) := by
  intro fuel
  induction fuel with
  | zero =>
    intro s _ n hach
    by_cases hnil : s.fila_aberta.isEmpty <;> simp [laco, hnil] at hach
  | succ m ih =>
    intro s inv n hach
    simp only [laco] at hach
    split at hach
    case isTrue => cases hach
    case isFalse hnil =>
      have hne : s.fila_aberta ≠ [] := fun hc => hnil (by simp [hc])
      split at hach
      case isTrue hgoal =>
        simp only [ResA.achado.injEq] at hach
        subst hach
        refine ⟨inv.wf _ ((heappop_perm s.fila_aberta hne).mem_iff.mpr
          (List.mem_cons_self _ _)), hgoal, ?_⟩
        have hopt := pop_otimo lab pi pf B s inv hne
        rwa [hgoal] at hopt
      case isFalse hgoal =>
        exact ih _ (invBusca_passo lab pi pf B s hne inv hgoal) n hach

/-- C5: whenever the marker scan succeeds and the engine returns a path,
that path's total cost (under the engine's unit step costs) is minimal:
no legal path from the start marker to the goal marker costs strictly
less.  The proof goes through the full loop invariant: the frontier is a
binary min-heap on `f = g + h` with the (consistent) Manhattan heuristic
`h`, so the goal node is popped with an optimal accumulated `g_cost`. -/
theorem c5_custo_minimo (lab : List (List String))
    (pos_inicial pos_final : Pos) (caminho q : List Pos)
    (hS : encontrar_posicoes lab = (some pos_inicial, some pos_final))
    (hret : algoritmo_a_estrela lab = some caminho)
    (hq : CaminhoLegal lab pos_inicial pos_final q) :
    custo_total caminho ≤ custo_total q := by
  unfold algoritmo_a_estrela at hret
  cases hres : resultado_busca lab with
  | semCaminho => rw [hres] at hret; cases hret
  | semCombustivel => rw [hres] at hret; cases hret
  | achado n =>
    rw [hres] at hret
    have hcam : caminho = reconstruir_caminho n := by
      simpa using hret.symm
    have hrb : resultado_busca lab
        = (laco pos_final (combustivel lab)
            (estado_inicial lab pos_inicial pos_final)).1 := by
      unfold resultado_busca
      rw [hS]
    have hpi : pos_inicial ∈ insert pos_inicial (celulasGrade lab) :=
      Finset.mem_insert_self _ _
    have hviz : ∀ p r : Pos, r ∈ obter_vizinhos p lab →
        r ∈ insert pos_inicial (celulasGrade lab) :=
      fun p r hr => Finset.mem_insert_of_mem (vizinhos_na_grade p r lab hr)
    have inv0 := invBusca_inicial lab pos_inicial pos_final _ hpi hviz
    obtain ⟨hwf, -, hopt⟩ := laco_otimo lab pos_inicial pos_final _
      (combustivel lab) (estado_inicial lab pos_inicial pos_final) inv0 n
      (by rw [← hrb]; exact hres)
    obtain ⟨-, -, -, hg⟩ := wf_reconstruir lab pos_inicial pos_final n hwf
    have hcc : custo_total caminho = n.g_cost := by
      rw [hcam, custo_total_comprimento _ (reconstruir_ne_nil n), hg]
    have hqne : q ≠ [] := by
      intro hc
      rw [hc] at hq
      cases hq.1
    have hqlen : 0 < q.length := List.length_pos.mpr hqne
    have hdle := distMin_le_caminho lab pos_inicial pos_final q hq
    have hcq : custo_total q = (q.length : Int) - 1 :=
      custo_total_comprimento q hqne
    rw [hcc, hcq]
    have hdleInt : (distMin lab pos_inicial pos_final : Int)
        ≤ (q.length : Int) - 1 := by
      omega
    linarith

/-- Witness for the C5 theorem on the 1 × 2 maze `S E`, compared against
the legal path `[(0,0), (0,1)]`. -/
theorem c5_custo_minimo_witness :
    encontrar_posicoes [["S", "E"]] = (some (0, 0), some (0, 1)) ∧
    algoritmo_a_estrela [["S", "E"]] = some [(0, 0), (0, 1)] ∧
    CaminhoLegal [["S", "E"]] (0, 0) (0, 1) [(0, 0), (0, 1)] ∧
    custo_total [(0, 0), (0, 1)] ≤ custo_total [(0, 0), (0, 1)] := by
  have hleg : CaminhoLegal [["S", "E"]] (0, 0) (0, 1) [(0, 0), (0, 1)] := by
    unfold CaminhoLegal
    exact ⟨by decide, by decide,
      List.chain'_cons.mpr ⟨by decide, List.chain'_singleton _⟩⟩
  exact ⟨by decide, by decide, hleg,
    c5_custo_minimo [["S", "E"]] (0, 0) (0, 1) [(0, 0), (0, 1)]
      [(0, 0), (0, 1)] (by decide) (by decide) hleg⟩
